import Mathlib

/-!
Verification development for the Twitter-Liked-Images-Downloader repository.

Shallow embedding of the three core subsystems:
  * the rotating identifier log store (`src/known_tweets_handler.py`,
    with its reverse file reader from `src/file_utils.py`),
  * the generic persistent metadata store (`src/persistent_data.py`),
  * the incremental sync engine (`src/download_liked_tweets.py`) and the
    request-budget accounting of the API client (`src/twitter_api_bot.py`).

Modelling conventions:
  * Tweet identifiers are opaque strings written one per line; every ID renders
    to a single non-blank line and distinct IDs render to distinct lines, so the
    IDs are modelled as `Nat` (an injective stand-in for the line text).  A file
    of ID lines is modelled as the `List TweetId` of its lines in file order.
  * `file_utils.readline_reverse` yields the non-blank stripped lines of a file
    from last to first; on files consisting of ID lines this is exactly
    `List.reverse`, which is how it is modelled at its single use site.
  * The metadata keys used by the log store (`twt_db.file_num`,
    `twt_db.line_count`, `temp_db.file_num`) are inlined as fields of the
    per-user state `KTState`; the generic dotted-path store is modelled
    separately (`PDState`) for the claims that are about it.
  * A missing file is `none`; an existing file with lines `ls` is `some ls`.
-/

abbrev TweetId := Nat

/-- Errors surfaced by `known_tweets_handler.load_from_file`:
`repairNeeded` is the `RuntimeError("Record of liked tweets ... may require repairs!")`
raised when a segment file other than segment 1 is missing. -/
inductive LoadErr where
  | repairNeeded
deriving DecidableEq, Repr

/-- Per-user state of the identifier log store (`known_tweets_handler.py`).
`fileNum` is the metadata entry `twt_db.file_num` (default 1), `lineCount` is
`twt_db.line_count` (default `[]`, entry `i` counts the lines of segment file
`i+1`), and `files` holds the main segment files: `files[i]` is segment file
`i+1`, `none` when that file does not exist.  `tempFileNum` is
`temp_db.file_num` (`none` when the `temp_db` metadata is absent), `tempFiles`
are the temp-buffer files, and `tempDir` records whether the temp directory
exists. -/
structure KTState where
  fileNum : Nat := 1
  lineCount : List Nat := []
  files : List (Option (List TweetId)) := []
  tempFileNum : Option Nat := none
  tempFiles : List (Option (List TweetId)) := []
  tempDir : Bool := false
deriving DecidableEq, Repr

/-- The state of a user that has never been synced: default metadata
(`twt_db.file_num = 1`, `twt_db.line_count = []`) and no files on disk. -/
def initKTState : KTState := {}

/-- Append lines `xs` to file `i+1` (mode `"a"`: the file is created when
missing).  Opening a file at an index beyond the current list leaves any
intermediate missing files missing. -/
def writeSeg (fs : List (Option (List TweetId))) (i : Nat) (xs : List TweetId) :
    List (Option (List TweetId)) :=
  if i < fs.length then fs.set i (some ((fs.getD i none).getD [] ++ xs))
  else fs ++ List.replicate (i - fs.length) none ++ [some xs]

/-- Embedding of `persistent_data._set_in_list` at index `i` with
`set_func = (lambda x: count if x == None else x + count)` (the update used for
`twt_db.line_count` in `_save_explicit`).  In range, the entry becomes
`prev + count`, which is a no-op exactly when `count = 0`; out of range, the
list is extended with `None` placeholders (modelled as `0`; such placeholders
are never created at indices below the written one in any reachable state) and
the final entry becomes `count`. -/
def setIdxAdd (lc : List Nat) (i : Nat) (count : Nat) : List Nat :=
  if i < lc.length then
    if count = 0 then lc else lc.set i (lc.getD i 0 + count)
  else lc ++ List.replicate (i - lc.length) 0 ++ [count]

/-- One line per recursive invocation of `known_tweets_handler._save_explicit`.
`fuel` bounds the recursion depth (the Python recursion is unbounded; the fuel
chosen in `saveExplicit` suffices for every state satisfying the rotation
invariant).  Faithful to the source:

    if twtslen <= 0: return
    lcount = line_count[fnum-1] (default 0)
    count  = number of IDs written = min(limit - lcount, len(twts)) if lcount < limit else 0
    (file fnum is opened for append only when lcount < limit)
    line_count[fnum-1] += count   (set_func: count if absent)
    if lcount + twtslen > limit: file_num := fnum + 1; recurse on twts[count:]
-/
def saveExpGo (C : Nat) : Nat → KTState → Nat → List TweetId → KTState
  | 0, s, _, _ => s
  | fuel + 1, s, fnum, twts =>
    if twts.length = 0 then s
    else
      let lcount := s.lineCount.getD (fnum - 1) 0
      let count := if lcount < C then min (C - lcount) twts.length else 0
      let s1 :=
        if lcount < C then { s with files := writeSeg s.files (fnum - 1) (twts.take count) }
        else s
      let s2 := { s1 with lineCount := setIdxAdd s1.lineCount (fnum - 1) count }
      if C < lcount + twts.length then
        saveExpGo C fuel { s2 with fileNum := fnum + 1 } (fnum + 1) (twts.drop count)
      else s2

/-- Embedding of `_save_explicit(id, twts, limit)` with `fnum = None` (so the head segment
`twt_db.file_num` is addressed).  The fuel `twts.length + 2` covers the longest
possible recursion from any state satisfying the rotation invariant: at most
one rotation makes no progress (a head segment already at capacity) and every
other step writes at least one ID. -/
def saveExplicit (C : Nat) (s : KTState) (twts : List TweetId) : KTState :=
  saveExpGo C (twts.length + 2) s s.fileNum twts

/-- Clamping of the per-segment capacity in `save_to_file`:
`limit = min(max(limit, 1000), 10000)` (non-`int` inputs become 5000 first,
which the clamp maps into the same range). -/
def clampCap (raw : Int) : Nat := (min (max raw 1000) 10000).toNat

/-- The read loop of `load_from_file` over the output of
`readline_reverse` (modelled by feeding the reversed line list `ls`):

    for l in reverse_gen:
        if count >= limit > 0: break
        if l in twts: continue
        twts.append(l); count += 1

Returns the accumulated list and the final count.  `limit` is the already
clamped limit, which is always at least 1, so `limit > 0` always holds. -/
def revRead (ls : List TweetId) (twts : List TweetId) (count limit : Nat) :
    List TweetId × Nat :=
  match ls with
  | [] => (twts, count)
  | l :: rest =>
    if limit ≤ count then (twts, count)
    else if l ∈ twts then revRead rest twts count limit
    else revRead rest (twts ++ [l]) (count + 1) limit

/-- The recursive core of `load_from_file`, addressing segment `fnum` of the
given files.  Faithful to the source:

    if fnum < 1: return []
    if not os.path.exists(fname):
        if fnum > 1: raise RuntimeError(... may require repairs!)
        return []
    ... reverse-read loop ...
    elif limit > count: twts.extend(load_from_file(id, limit - count, fnum - 1))

(The `if limit < 1` branch after the loop is dead code: the entry clamp makes
`limit >= 1`, and recursive calls pass `limit - count >= 1`.) -/
def loadAux (files : List (Option (List TweetId))) : Nat → Nat → Except LoadErr (List TweetId)
  | 0, _ => .ok []
  | fnum + 1, lim =>
    match files.getD fnum none with
    | none => if fnum = 0 then .ok [] else .error .repairNeeded
    | some lines =>
      let p := revRead lines.reverse [] 0 lim
      if lim > p.2 then
        match loadAux files fnum (lim - p.2) with
        | .ok rest => .ok (p.1 ++ rest)
        | .error e => .error e
      else .ok p.1

/-- Clamping of the load limit: `if limit < 1 or limit > 10000: limit = 10000`. -/
def clampLoad (limit : Int) : Nat :=
  if limit < 1 ∨ limit > 10000 then 10000 else limit.toNat

/-- Embedding of `known_tweets_handler.load_from_file(id, limit)` (the external call, with
`fnum = None`, so it starts from the head segment `twt_db.file_num`). -/
def loadFromFile (s : KTState) (limit : Int) : Except LoadErr (List TweetId) :=
  loadAux s.files s.fileNum (clampLoad limit)

/-- Embedding of `known_tweets_handler.save_temp(id, twts)`: ensures the temp directory
exists, writes the batch to temp file `temp_db.file_num` (default 1) with mode
`"w"` (truncating), then updates `temp_db.file_num` with
`set_func = (lambda x: 2 if x == None else x + 1)`. -/
def saveTemp (s : KTState) (twts : List TweetId) : KTState :=
  let fnum := s.tempFileNum.getD 1
  let tf :=
    if fnum - 1 < s.tempFiles.length then s.tempFiles.set (fnum - 1) (some twts)
    else s.tempFiles ++ List.replicate (fnum - 1 - s.tempFiles.length) none ++ [some twts]
  { s with
    tempDir := true
    tempFiles := tf
    tempFileNum := some (match s.tempFileNum with | none => 2 | some x => x + 1) }

/-- The file contents yielded by `_revolve_temp_files` for temp file numbers
`n` down to `1`; missing files are skipped.  (Reading a temp file strips each
line and drops blank lines, which is the identity on files of ID lines.) -/
def revolveList (tf : List (Option (List TweetId))) : Nat → List (List TweetId)
  | 0 => []
  | n + 1 =>
    (match tf.getD n none with
     | some ls => [ls]
     | none => []) ++ revolveList tf n

/-- Embedding of `known_tweets_handler._revolve_temp_files(id)`: nothing if the temp
directory does not exist, otherwise the existing temp files from
`temp_db.file_num` (default 0) down to 1, most recent first. -/
def revolveTempFiles (s : KTState) : List (List TweetId) :=
  if s.tempDir then revolveList s.tempFiles (s.tempFileNum.getD 0) else []

/-- Embedding of `known_tweets_handler.save_to_file(id, twts, limit)`: clamp the capacity,
append `twts` via `_save_explicit`, drain the temp buffer batch by batch
through `_save_explicit` (`_combine_saves_with_temp`), and finally, if the temp
directory exists, remove it and delete the `temp_db` metadata subtree. -/
def saveToFile (s : KTState) (twts : List TweetId) (raw : Int) : KTState :=
  let C := clampCap raw
  let s1 := saveExplicit C s twts
  let s2 := (revolveTempFiles s1).foldl (fun st b => saveExplicit C st b) s1
  if s2.tempDir then { s2 with tempDir := false, tempFiles := [], tempFileNum := none }
  else s2

/-- All ID lines recorded in the main log, segment 1 first (missing files
contribute nothing).  This is the logical append order of the whole log. -/
def joined (s : KTState) : List TweetId :=
  (s.files.map (fun f => f.getD [])).flatten

/-!  Specification-level description of the rotation performed by
`_save_explicit`, used to state and transport its effect.  -/

/-- Split `xs` into consecutive chunks of `C` elements (the last chunk may be
shorter).  `chunks C xs = xs.take C :: chunks C (xs.drop C)` for nonempty `xs`
when `1 ≤ C`. -/
def chunks (C : Nat) : List TweetId → List (List TweetId)
  | [] => []
  | x :: rest => (x :: rest.take (C - 1)) :: chunks C (rest.drop (C - 1))
termination_by xs => xs.length
decreasing_by
  simp only [List.length_drop, List.length_cons]
  exact Nat.lt_succ_of_le (Nat.sub_le _ _)

/-- The segment list produced by appending `twts` to segments `segs` with
capacity `C`: fill the head segment up to `C`, then start fresh segments. -/
def rotApp (C : Nat) (segs : List (List TweetId)) (twts : List TweetId) :
    List (List TweetId) :=
  if twts = [] then segs
  else
    let h := segs.getLastD []
    if h.length < C then
      if twts.length ≤ C - h.length then segs.dropLast ++ [h ++ twts]
      else segs.dropLast ++ [h ++ twts.take (C - h.length)] ++ chunks C (twts.drop (C - h.length))
    else segs ++ chunks C twts

/-- The shape of a log state reachable through appends: every segment file
`i+1` exists and holds exactly `lineCount[i]` lines, `file_num` points at the
last segment (or 1 when nothing was ever written), every non-head segment is
exactly at capacity and the head is at most at capacity. -/
def LogShape (C : Nat) (s : KTState) (segs : List (List TweetId)) : Prop :=
  s.files = segs.map some ∧
  s.lineCount = segs.map List.length ∧
  s.fileNum = max 1 segs.length ∧
  (∀ seg ∈ segs.dropLast, seg.length = C) ∧
  (∀ seg ∈ segs, seg.length ≤ C)

/-- Temp buffer entirely absent (directory, files and metadata). -/
def TempClean (s : KTState) : Prop :=
  s.tempDir = false ∧ s.tempFiles = [] ∧ s.tempFileNum = none

/-!  The incremental sync engine (`download_liked_tweets.py`).  -/

/-- One item of a page's `data` array, reduced to the fields the engine
inspects: its ID, whether it carries `attachments.media_keys`, and how many of
its images the downloader collaborator successfully downloads
(`process_tweet_for_media` is delegated I/O, so its outcome is input data
here). -/
structure Tweet where
  id : TweetId
  hasAttachments : Bool
  imgs : Nat
deriving DecidableEq, Repr

/-- Result of `process_response_for_imgs` over one page.  `halt`, `imgCount`
and `tweetCount` are the returned triple; `newSeen` is what the page appended
to `new_processed_tweets`, and `inspected` instruments the run with the IDs
that actually reached the duplicate check `tweet_id in processed_tweets` (IDs
skipped for lacking attachments, or never looped over after a halt, are not
inspected). -/
structure PageResult where
  halt : Nat
  imgCount : Nat
  tweetCount : Nat
  newSeen : List TweetId
  inspected : List TweetId
deriving DecidableEq, Repr

/-- The item loop of `process_response_for_imgs` (lines 255-271):

    for tweet in data:
        if "attachments" not in tweet or "media_keys" not in tweet["attachments"]: continue
        if (not ignore_processed) and tweet_id in processed_tweets: halt = 2; break
        img_count += ...; new_processed_tweets.append(tweet_id); tweet_count += 1

(The external-URL counter update of lines 268-269 is a metadata side effect
with no influence on the returned triple and is not modelled here.) -/
def processResponse (known : List TweetId) (ignore : Bool) :
    List Tweet → PageResult
  | [] => ⟨0, 0, 0, [], []⟩
  | t :: rest =>
    if t.hasAttachments = false then processResponse known ignore rest
    else if ignore = false ∧ t.id ∈ known then ⟨2, 0, 0, [], [t.id]⟩
    else
      let r := processResponse known ignore rest
      ⟨r.halt, t.imgs + r.imgCount, 1 + r.tweetCount, t.id :: r.newSeen, t.id :: r.inspected⟩

/-- Exceptions of `twitter_api_bot.connect_to_endpoint`: `RequestCountError`
when the per-run request budget is already exhausted, and
`UnsuccessfulRequestError` when the response status is not 200. -/
inductive ApiErr where
  | requestCount
  | unsuccessful
deriving DecidableEq, Repr

/-- Embedding of `process_usr_for_liked` (lines 202-224): iterates the pages produced by the
`fetch_liked_tweets` generator inside a `try` block that catches ONLY
`UnsuccessfulRequestError` (mapped to `halt = 1`).  A page outcome is either a
yielded page or an exception raised inside the generator.  `RequestCountError`
is not caught, so it escapes the function (`Except.error`).  On a page with
`halt > 0` the loop breaks; an exhausted generator yields halt 0. -/
def processUsrForLiked (known : List TweetId) (ignore : Bool) :
    List (Except ApiErr (List Tweet)) → Nat → Nat → Except ApiErr (Nat × Nat × Nat)
  | [], imgs, tweets => .ok (0, imgs, tweets)
  | .error .requestCount :: _, _, _ => .error .requestCount
  | .error .unsuccessful :: _, imgs, tweets => .ok (1, imgs, tweets)
  | .ok page :: rest, imgs, tweets =>
    let r := processResponse known ignore page
    if 0 < r.halt then .ok (r.halt, imgs + r.imgCount, tweets + r.tweetCount)
    else processUsrForLiked known ignore rest (imgs + r.imgCount) (tweets + r.tweetCount)

/-!  Request budget accounting (`twitter_api_bot.py`).  -/

/-- The module constant `max_requests = 50`. -/
def maxRequests : Nat := 50

/-- Embedding of `connect_to_endpoint` reduced to its budget accounting, as a function of
the current `requests_count` and of the HTTP status the network would return.
The first component records whether a network request was actually issued.
Faithful to lines 186-197: the budget check raises before any request; a
non-200 response raises after the request but before the increment; only a 200
response increments `requests_count`. -/
def connectToEndpoint (requestsCount status : Nat) : Bool × Except ApiErr Nat :=
  if maxRequests ≤ requestsCount then (false, .error .requestCount)
  else if status ≠ 200 then (true, .error .unsuccessful)
  else (true, .ok (requestsCount + 1))

/-- The value of `requests_count` after one call (an exception leaves the
global counter unchanged). -/
def countAfter (requestsCount status : Nat) : Nat :=
  match (connectToEndpoint requestsCount status).2 with
  | .ok c => c
  | .error _ => requestsCount

/-- The value of `requests_count` after a sequence of calls with the given
response statuses. -/
def runCounts (c : Nat) (statuses : List Nat) : Nat :=
  statuses.foldl countAfter c

/-!  The generic persistent metadata store (`persistent_data.py`).  -/

/-- A key of the in-memory store `_loaded_data`.  `main` in
`download_liked_tweets.py` passes the Python builtin function `id` — not the
string `usr_id` — to `pd.set_data`; the builtin is a value distinct from every
user-ID string, modelled as `none` (user IDs are `some u`). -/
abbrev PDKey := Option String

/-- Embedding of `DataWrapper.default_vals()` as a record: the default metadata schema.
Serialization (`json.dump`) is injective on these records, so a record stands
for its own snapshot bytes. -/
structure PDRec where
  twtFileNum : Nat := 1
  twtLineCount : List Nat := []
  likedCount : Int := 0
  likedWithExternalUrls : Int := 0
  imgsDownloaded : Int := 0
  requestsMade : Int := 0
deriving DecidableEq, Repr

/-- The module-level state of `persistent_data.py`: `_loaded_data` (an
insertion-ordered dict), `_data_modified` (a list, appended to at most once per
key and never cleared), and the on-disk snapshots. -/
structure PDState where
  loaded : List (PDKey × PDRec) := []
  modified : List PDKey := []
  disk : List (PDKey × PDRec) := []
deriving DecidableEq, Repr

/-- Dict lookup on an insertion-ordered association list. -/
def pdLookup (l : List (PDKey × PDRec)) (k : PDKey) : Option PDRec :=
  match l with
  | [] => none
  | p :: rest => if p.1 = k then some p.2 else pdLookup rest k

/-- Dict store: overwrite in place when present, append when absent. -/
def pdStore (l : List (PDKey × PDRec)) (k : PDKey) (r : PDRec) :
    List (PDKey × PDRec) :=
  match l with
  | [] => [(k, r)]
  | p :: rest => if p.1 = k then (k, r) :: rest else p :: pdStore rest k r

/-- Embedding of `_set_as_modified(id)`: append the key to `_data_modified` unless already
present. -/
def markModified (m : List PDKey) (k : PDKey) : List PDKey :=
  if k ∈ m then m else m ++ [k]

/-- Embedding of `_default_if_nonexistent(id)`: on first access a key receives the default
record and is immediately marked modified. -/
def defaultIfNonexistent (ps : PDState) (k : PDKey) : PDState :=
  match pdLookup ps.loaded k with
  | some _ => ps
  | none =>
    { ps with loaded := pdStore ps.loaded k {}, modified := markModified ps.modified k }

/-- Embedding of `set_data(id, key, set_func=f)`: ensure the record exists (`get_data` calls
`_default_if_nonexistent`), apply the update, and mark the key modified only
when `DataWrapper._set` reports a change (`f` returns the updated record and
the changed flag, mirroring the `val in [None, prev_val]` no-op test). -/
def setDataWith (ps : PDState) (k : PDKey) (f : PDRec → PDRec × Bool) : PDState :=
  let ps1 := defaultIfNonexistent ps k
  let r := (pdLookup ps1.loaded k).getD {}
  let u := f r
  if u.2 then
    { ps1 with loaded := pdStore ps1.loaded k u.1, modified := markModified ps1.modified k }
  else ps1

/-- Embedding of `persistent_data.save_to_file()`: for every ID in `_data_modified` — which
is never cleared — dump that ID's full record to its snapshot file.  Returns
the updated state together with the list of performed writes (key, snapshot),
in order. -/
def pdSaveToFile (ps : PDState) : PDState × List (PDKey × PDRec) :=
  let writes := ps.modified.map (fun k => (k, (pdLookup ps.loaded k).getD {}))
  ({ ps with disk := writes.foldl (fun d w => pdStore d w.1 w.2) ps.disk }, writes)

/-- The update `set_data(id, "liked_tweets.count", set_func=(lambda x: x + tweet_count))`
as a record update: new value `prev + tc`, changed when it differs from the
previous value. -/
def incLikedCount (tc : Int) (r : PDRec) : PDRec × Bool :=
  let v := r.likedCount + tc
  if v = r.likedCount then (r, false) else ({ r with likedCount := v }, true)

/-- The update `set_data(id, "imgs_downloaded", set_func=(lambda x: x + img_count))`. -/
def incImgsDownloaded (ic : Int) (r : PDRec) : PDRec × Bool :=
  let v := r.imgsDownloaded + ic
  if v = r.imgsDownloaded then (r, false) else ({ r with imgsDownloaded := v }, true)

/-- The update `set_data(id, "requests_made", set_func=(lambda x: x + twab.requests_count))`. -/
def incRequestsMade (rc : Int) (r : PDRec) : PDRec × Bool :=
  let v := r.requestsMade + rc
  if v = r.requestsMade then (r, false) else ({ r with requestsMade := v }, true)

/-- The stores visible to `download_liked_tweets.main`: the metadata store and
the per-user identifier logs. -/
structure MainState where
  pds : PDState
  logs : String → KTState

/-- The post-loop commit step of `main` (download_liked_tweets.py lines
310-315), embedded exactly as written: the three `pd.set_data` calls pass the
Python builtin function `id` (key `none`), not `usr_id`, and no
`known_tweets_handler` save of `new_processed_tweets` is invoked anywhere, so
the identifier logs are untouched. -/
def mainCommit (tweetCount imgCount requestsCount : Int) (ms : MainState) : MainState :=
  { ms with
    pds :=
      setDataWith
        (setDataWith
          (setDataWith ms.pds none (incLikedCount tweetCount))
          none (incImgsDownloaded imgCount))
        none (incRequestsMade requestsCount) }

/-- Corrupted store used to refute the cross-segment dedup claim: two segment
files both holding the single line `7`. -/
def c6CexState : KTState :=
  { fileNum := 2, lineCount := [1, 1], files := [some [7], some [7]] }

/-- The page of the dedup-halt scenario: items `7, 6, 5, 4, 3`, newest first,
all bearing media attachments. -/
def dedupScenarioPage : List Tweet :=
  [⟨7, true, 0⟩, ⟨6, true, 0⟩, ⟨5, true, 0⟩, ⟨4, true, 0⟩, ⟨3, true, 0⟩]

/-!  General list facts used throughout.  -/

theorem getD_map_some_of_lt (segs : List (List TweetId)) (i : Nat)
    (h : i < segs.length) :
    (segs.map some).getD i none = some (segs.getD i []) := by
  simp [List.getD_eq_getElem?_getD, List.getElem?_map, List.getElem?_eq_getElem h]

theorem getD_map_some_of_le (segs : List (List TweetId)) (i : Nat)
    (h : segs.length ≤ i) :
    (segs.map some).getD i none = none := by
  simp [List.getD_eq_getElem?_getD, List.getElem?_eq_none, h]

theorem getD_map_length_of_le (segs : List (List TweetId)) (i : Nat)
    (h : segs.length ≤ i) :
    (segs.map List.length).getD i 0 = 0 := by
  simp [List.getD_eq_getElem?_getD, List.getElem?_eq_none, h]

theorem getD_map_length_last (A : List (List TweetId)) (h : List TweetId) :
    ((A ++ [h]).map List.length).getD A.length 0 = h.length := by
  simp [List.getD_eq_getElem?_getD, List.getElem?_map]

theorem set_last (A : List (List TweetId)) (h : List TweetId)
    (v : List TweetId) : (A ++ [h]).set A.length v = A ++ [v] := by
  induction A with
  | nil => rfl
  | cons a A ih => simp [List.set, ih]

theorem set_last_opt (A : List (Option (List TweetId))) (h v : Option (List TweetId)) :
    (A ++ [h]).set A.length v = A ++ [v] := by
  induction A with
  | nil => rfl
  | cons a A ih => simp [List.set, ih]

theorem flatten_dropLast_getLastD (segs : List (List TweetId)) :
    segs.flatten = segs.dropLast.flatten ++ segs.getLastD [] := by
  rcases List.eq_nil_or_concat' segs with h | ⟨A, a, rfl⟩
  · simp [h]
  · simp [List.getLastD_concat]

theorem mem_of_concat (segs : List (List TweetId)) (seg : List TweetId)
    (h : seg ∈ segs) :
    seg ∈ segs.dropLast ∨ seg = segs.getLastD [] := by
  rcases List.eq_nil_or_concat' segs with rfl | ⟨A, a, rfl⟩
  · simp at h
  · simp only [List.dropLast_concat, List.getLastD_concat]
    rcases List.mem_append.1 h with h | h
    · exact Or.inl h
    · simp at h
      exact Or.inr h

/-!  Facts about `chunks`.  -/

theorem chunks_eq_single (C : Nat) (xs : List TweetId) (hne : xs ≠ [])
    (hlen : xs.length ≤ C) : chunks C xs = [xs] := by
  match xs with
  | [] => exact absurd rfl hne
  | x :: rest =>
    rw [chunks]
    have h1 : rest.length ≤ C - 1 := by simp at hlen; omega
    rw [List.take_of_length_le h1, List.drop_eq_nil_of_le h1, chunks]

theorem chunks_cons_of_lt (C : Nat) (hC : 1 ≤ C) (xs : List TweetId)
    (hlen : C < xs.length) :
    chunks C xs = xs.take C :: chunks C (xs.drop C) := by
  match xs with
  | [] => simp at hlen
  | x :: rest =>
    rw [chunks]
    have h1 : x :: rest.take (C - 1) = (x :: rest).take C := by
      match C, hC with
      | c + 1, _ => simp [List.take_succ_cons]
    have h2 : rest.drop (C - 1) = (x :: rest).drop C := by
      match C, hC with
      | c + 1, _ => simp [List.drop_succ_cons]
    rw [h1, h2]

theorem chunks_ne_nil (C : Nat) (xs : List TweetId) (hne : xs ≠ []) :
    chunks C xs ≠ [] := by
  match xs with
  | [] => exact absurd rfl hne
  | x :: rest => rw [chunks]; simp

theorem chunks_flatten (C : Nat) (hC : 1 ≤ C) :
    ∀ (n : Nat) (xs : List TweetId), xs.length ≤ n → (chunks C xs).flatten = xs := by
  intro n
  induction n with
  | zero =>
    intro xs h
    have : xs = [] := List.length_eq_zero.1 (Nat.le_zero.1 h)
    subst this
    simp [chunks]
  | succ n ih =>
    intro xs h
    match xs with
    | [] => simp [chunks]
    | x :: rest =>
      rw [chunks]
      simp only [List.flatten_cons]
      have hlen : (rest.drop (C - 1)).length ≤ n := by
        simp only [List.length_drop]
        simp at h
        omega
      rw [ih _ hlen]
      simp [List.take_append_drop]

theorem chunks_length_le (C : Nat) (hC : 1 ≤ C) :
    ∀ (n : Nat) (xs : List TweetId), xs.length ≤ n →
      ∀ seg ∈ chunks C xs, seg.length ≤ C := by
  intro n
  induction n with
  | zero =>
    intro xs h seg hseg
    have : xs = [] := List.length_eq_zero.1 (Nat.le_zero.1 h)
    subst this
    simp [chunks] at hseg
  | succ n ih =>
    intro xs h seg hseg
    match xs with
    | [] => simp [chunks] at hseg
    | x :: rest =>
      rw [chunks] at hseg
      rcases List.mem_cons.1 hseg with rfl | hseg
      · simp only [List.length_cons, List.length_take]
        omega
      · have hlen : (rest.drop (C - 1)).length ≤ n := by
          simp only [List.length_drop]
          simp at h
          omega
        exact ih _ hlen seg hseg

theorem chunks_dropLast_full (C : Nat) (hC : 1 ≤ C) :
    ∀ (n : Nat) (xs : List TweetId), xs.length ≤ n →
      ∀ seg ∈ (chunks C xs).dropLast, seg.length = C := by
  intro n
  induction n with
  | zero =>
    intro xs h seg hseg
    have : xs = [] := List.length_eq_zero.1 (Nat.le_zero.1 h)
    subst this
    simp [chunks] at hseg
  | succ n ih =>
    intro xs h seg hseg
    match xs with
    | [] => simp [chunks] at hseg
    | x :: rest =>
      rw [chunks] at hseg
      by_cases hrest : rest.drop (C - 1) = []
      · rw [hrest] at hseg
        simp [chunks] at hseg
      · have hne := chunks_ne_nil C _ hrest
        rw [List.dropLast_cons_of_ne_nil hne] at hseg
        rcases List.mem_cons.1 hseg with rfl | hseg
        · have : C - 1 ≤ rest.length := by
            by_contra hc
            push_neg at hc
            exact hrest (List.drop_eq_nil_of_le (Nat.le_of_lt hc))
          simp only [List.length_cons, List.length_take]
          omega
        · have hlen : (rest.drop (C - 1)).length ≤ n := by
            simp only [List.length_drop]
            simp at h
            omega
          exact ih _ hlen seg hseg

/-!  Facts about the reverse-read loop.  -/

theorem revRead_spec :
    ∀ (ls twts : List TweetId) (count lim : Nat), ls.Nodup →
      (∀ l ∈ ls, l ∉ twts) → count ≤ lim →
      revRead ls twts count lim =
        (twts ++ ls.take (lim - count), min (count + ls.length) lim) := by
  intro ls
  induction ls with
  | nil =>
    intro twts count lim _ _ hle
    simp [revRead]
    omega
  | cons l rest ih =>
    intro twts count lim hnd hdisj hle
    rw [revRead]
    by_cases hstop : lim ≤ count
    · have hceq : count = lim := Nat.le_antisymm hle hstop
      subst hceq
      simp
    · have hnotmem : l ∉ twts := hdisj l (List.mem_cons_self l rest)
      rw [if_neg hstop, if_neg hnotmem]
      have hnd2 : rest.Nodup := (List.nodup_cons.1 hnd).2
      have hdisj2 : ∀ x ∈ rest, x ∉ twts ++ [l] := by
        intro x hx
        simp only [List.mem_append, List.mem_singleton]
        push_neg
        refine ⟨hdisj x (List.mem_cons_of_mem l hx), ?_⟩
        intro hxl
        exact (List.nodup_cons.1 hnd).1 (hxl ▸ hx)
      have hle2 : count + 1 ≤ lim := Nat.succ_le_of_lt (Nat.lt_of_not_le hstop)
      rw [ih (twts ++ [l]) (count + 1) lim hnd2 hdisj2 hle2]
      have htk : lim - count = (lim - (count + 1)) + 1 := by omega
      rw [htk, List.take_succ_cons]
      simp only [List.append_assoc, List.singleton_append, List.length_cons]
      have harith : count + 1 + rest.length = count + (rest.length + 1) := by omega
      rw [harith]

theorem revRead_fst_nodup :
    ∀ (ls twts : List TweetId) (count lim : Nat), twts.Nodup →
      (revRead ls twts count lim).1.Nodup := by
  intro ls
  induction ls with
  | nil => intro twts count lim h; simpa [revRead] using h
  | cons l rest ih =>
    intro twts count lim h
    rw [revRead]
    by_cases hstop : lim ≤ count
    · simpa [hstop] using h
    · rw [if_neg hstop]
      by_cases hmem : l ∈ twts
      · rw [if_pos hmem]; exact ih twts count lim h
      · rw [if_neg hmem]
        refine ih (twts ++ [l]) (count + 1) lim ?_
        simpa [List.nodup_append] using ⟨h, hmem⟩

theorem revRead_len :
    ∀ (ls twts : List TweetId) (count lim : Nat),
      (revRead ls twts count lim).1.length + count =
        twts.length + (revRead ls twts count lim).2 := by
  intro ls
  induction ls with
  | nil => intro twts count lim; simp [revRead]
  | cons l rest ih =>
    intro twts count lim
    rw [revRead]
    by_cases hstop : lim ≤ count
    · simp [hstop]
    · rw [if_neg hstop]
      by_cases hmem : l ∈ twts
      · rw [if_pos hmem]; exact ih twts count lim
      · rw [if_neg hmem]
        have := ih (twts ++ [l]) (count + 1) lim
        simp only [List.length_append, List.length_singleton] at this
        omega

theorem revRead_count_le :
    ∀ (ls twts : List TweetId) (count lim : Nat), count ≤ lim →
      (revRead ls twts count lim).2 ≤ lim := by
  intro ls
  induction ls with
  | nil => intro twts count lim h; simpa [revRead] using h
  | cons l rest ih =>
    intro twts count lim h
    rw [revRead]
    by_cases hstop : lim ≤ count
    · simpa [hstop] using h
    · rw [if_neg hstop]
      by_cases hmem : l ∈ twts
      · rw [if_pos hmem]; exact ih twts count lim h
      · rw [if_neg hmem]
        exact ih (twts ++ [l]) (count + 1) lim (Nat.succ_le_of_lt (Nat.lt_of_not_le hstop))

/-!  Facts about the recursive segment reader.  -/

theorem loadAux_congr :
    ∀ (fnum : Nat) (files fs : List (Option (List TweetId))),
      (∀ i, i < fnum → files.getD i none = fs.getD i none) →
      ∀ lim, loadAux files fnum lim = loadAux fs fnum lim := by
  intro fnum
  induction fnum with
  | zero => intro files fs _ lim; rfl
  | succ n ih =>
    intro files fs h lim
    rw [loadAux, loadAux, h n (Nat.lt_succ_self n)]
    have hrec := ih files fs (fun i hi => h i (Nat.lt_succ_of_lt hi))
    cases fs.getD n none with
    | none => rfl
    | some lines =>
      simp only
      rw [hrec]

theorem loadAux_length_le :
    ∀ (fnum : Nat) (files : List (Option (List TweetId))) (lim : Nat)
      (r : List TweetId), loadAux files fnum lim = .ok r → r.length ≤ lim := by
  intro fnum
  induction fnum with
  | zero =>
    intro files lim r h
    simp only [loadAux] at h
    cases h
    simp
  | succ n ih =>
    intro files lim r h
    rw [loadAux] at h
    cases hf : files.getD n none with
    | none =>
      rw [hf] at h
      by_cases hn : n = 0
      · simp [hn] at h
        cases h
        simp
      · simp [hn] at h
    | some lines =>
      rw [hf] at h
      simp only at h
      have hlen1 : (revRead lines.reverse [] 0 lim).1.length =
          (revRead lines.reverse [] 0 lim).2 := by
        have := revRead_len lines.reverse [] 0 lim
        simpa using this
      by_cases hcmp : lim > (revRead lines.reverse [] 0 lim).2
      · rw [if_pos hcmp] at h
        cases hrec : loadAux files n (lim - (revRead lines.reverse [] 0 lim).2) with
        | ok rest =>
          rw [hrec] at h
          cases h
          have hrl := ih files _ rest hrec
          simp only [List.length_append]
          omega
        | error e => rw [hrec] at h; cases h
      · rw [if_neg hcmp] at h
        cases h
        have hcle := revRead_count_le lines.reverse [] 0 lim (Nat.zero_le lim)
        omega

theorem loadAux_map_some (segs : List (List TweetId)) :
    ∀ (lim : Nat), 1 ≤ lim → (∀ seg ∈ segs, seg.Nodup) →
      loadAux (segs.map some) segs.length lim =
        .ok (segs.flatten.reverse.take lim) := by
  induction segs using List.reverseRecOn with
  | nil => intro lim _ _; simp [loadAux]
  | append_singleton A a ih =>
    intro lim hlim hnd
    have hlen : (A ++ [a]).length = A.length + 1 := by simp
    rw [hlen, loadAux]
    have hget : ((A ++ [a]).map some).getD A.length none = some a := by
      have h1 : A.length < (A ++ [a]).length := by simp
      rw [getD_map_some_of_lt _ _ h1]
      simp [List.getD_eq_getElem?_getD]
    rw [hget]
    simp only
    have hand : a.Nodup := hnd a (by simp)
    have hrev := revRead_spec a.reverse [] 0 lim
      (by simpa using hand) (by simp) (Nat.zero_le lim)
    rw [hrev]
    simp only [List.length_reverse, Nat.zero_add, Nat.sub_zero]
    have hflat : (A ++ [a]).flatten.reverse = a.reverse ++ A.flatten.reverse := by
      simp
    by_cases hcmp : a.length < lim
    · have hmin : min a.length lim = a.length := Nat.min_eq_left (Nat.le_of_lt hcmp)
      rw [hmin, if_pos hcmp]
      have hcongr : loadAux ((A ++ [a]).map some) A.length (lim - a.length) =
          loadAux (A.map some) A.length (lim - a.length) := by
        refine loadAux_congr A.length _ _ ?_ _
        intro i hi
        rw [getD_map_some_of_lt _ _ (by simp; omega),
          getD_map_some_of_lt _ _ hi]
        have : (A ++ [a]).getD i [] = A.getD i [] := by
          simp [List.getD_eq_getElem?_getD, List.getElem?_append_left hi]
        rw [this]
      rw [hcongr, ih (lim - a.length) (by omega)
        (fun seg hseg => hnd seg (List.mem_append_left _ hseg))]
      simp only
      rw [hflat, List.take_append_eq_append_take]
      rw [List.take_of_length_le (by simp; omega)]
      simp
    · have hmin : min a.length lim = lim := Nat.min_eq_right (Nat.le_of_not_lt hcmp)
      rw [hmin, if_neg (by omega)]
      rw [hflat, List.take_append_eq_append_take]
      have : lim - a.reverse.length = 0 := by simp; omega
      rw [this]
      simp

/-!  Facts about appends: the effect of `_save_explicit` on shaped states.  -/

theorem set_last_gen {α : Type} (A : List α) (h v : α) :
    (A ++ [h]).set A.length v = A ++ [v] := by
  induction A with
  | nil => rfl
  | cons a A ih => simp [List.set, ih]

theorem writeSeg_fresh (segs : List (List TweetId)) (xs : List TweetId) :
    writeSeg (segs.map some) segs.length xs = (segs ++ [xs]).map some := by
  simp [writeSeg]

theorem setIdxAdd_fresh (lc : List Nat) (c : Nat) :
    setIdxAdd lc lc.length c = lc ++ [c] := by
  simp [setIdxAdd]

theorem writeSeg_last (A : List (List TweetId)) (h xs : List TweetId) :
    writeSeg ((A ++ [h]).map some) A.length xs = (A ++ [h ++ xs]).map some := by
  simp only [writeSeg]
  rw [if_pos (by simp)]
  have hget : ((A ++ [h]).map some).getD A.length none = some h := by
    rw [getD_map_some_of_lt _ _ (by simp)]
    simp [List.getD_eq_getElem?_getD]
  rw [hget]
  simp only [Option.getD_some]
  have hs := set_last_gen (A.map some) (some h) (some (h ++ xs))
  rw [List.map_append]
  simp only [List.map_cons, List.map_nil]
  rw [show (A.map some).length = A.length by simp] at hs
  rw [hs, List.map_append]
  simp

theorem setIdxAdd_last (A : List (List TweetId)) (h : List TweetId) (c : Nat)
    (hc : c ≠ 0) :
    setIdxAdd ((A ++ [h]).map List.length) A.length c =
      A.map List.length ++ [h.length + c] := by
  simp only [setIdxAdd]
  rw [if_pos (by simp), if_neg hc, getD_map_length_last]
  have hs := set_last_gen (A.map List.length) h.length (h.length + c)
  rw [show (A.map List.length).length = A.length by simp] at hs
  rw [List.map_append]
  simpa using hs

theorem saveExpGo_step (C fuel : Nat) (s : KTState) (fnum : Nat)
    (twts : List TweetId) :
    saveExpGo C (fuel + 1) s fnum twts =
      if twts.length = 0 then s
      else
        let lcount := s.lineCount.getD (fnum - 1) 0
        let count := if lcount < C then min (C - lcount) twts.length else 0
        let s1 :=
          if lcount < C then
            { s with files := writeSeg s.files (fnum - 1) (twts.take count) }
          else s
        let s2 := { s1 with lineCount := setIdxAdd s1.lineCount (fnum - 1) count }
        if C < lcount + twts.length then
          saveExpGo C fuel { s2 with fileNum := fnum + 1 } (fnum + 1) (twts.drop count)
        else s2 := rfl

theorem setIdxAdd_freshSegs (segs : List (List TweetId)) (c : Nat) :
    setIdxAdd (segs.map List.length) segs.length c = segs.map List.length ++ [c] := by
  simp [setIdxAdd]

theorem saveExpGo_fresh_step (C f : Nat) (hC : 1 ≤ C) (s : KTState)
    (segs : List (List TweetId)) (twts : List TweetId) (hne : twts ≠ [])
    (hfiles : s.files = segs.map some) (hlc : s.lineCount = segs.map List.length) :
    saveExpGo C (f + 1) s (segs.length + 1) twts =
      if C < twts.length then
        saveExpGo C f
          { s with
            files := (segs ++ [twts.take C]).map some
            lineCount := (segs ++ [twts.take C]).map List.length
            fileNum := segs.length + 2 }
          (segs.length + 2) (twts.drop C)
      else
        { s with
          files := (segs ++ [twts]).map some
          lineCount := (segs ++ [twts]).map List.length } := by
  have hpos : 0 < twts.length := List.length_pos.2 hne
  have hCpos : 0 < C := hC
  rw [saveExpGo_step]
  rw [if_neg (by omega)]
  simp only [Nat.add_sub_cancel, hlc, hfiles,
    getD_map_length_of_le segs segs.length (Nat.le_refl _), if_pos hCpos,
    Nat.sub_zero, Nat.zero_add, writeSeg_fresh, setIdxAdd_freshSegs]
  by_cases hover : C < twts.length
  · rw [if_pos hover, if_pos hover]
    have hminC : min C twts.length = C := Nat.min_eq_left (Nat.le_of_lt hover)
    have htkC : (twts.take C).length = C := by simp [Nat.le_of_lt hover]
    rw [hminC]
    have hlceq : segs.map List.length ++ [C] = (segs ++ [twts.take C]).map List.length := by
      simp [htkC]
    rw [hlceq]
  · rw [if_neg hover, if_neg hover]
    have hminC : min C twts.length = twts.length := Nat.min_eq_right (Nat.le_of_not_lt hover)
    rw [hminC, List.take_length]
    simp

theorem saveExpGo_fresh (C : Nat) (hC : 1 ≤ C) :
    ∀ (n : Nat) (twts : List TweetId) (s : KTState)
      (segs : List (List TweetId)) (fuel : Nat),
      twts.length ≤ n → twts ≠ [] → twts.length + 1 ≤ fuel →
      s.files = segs.map some → s.lineCount = segs.map List.length →
      s.fileNum = segs.length + 1 →
      saveExpGo C fuel s (segs.length + 1) twts =
        { s with
          files := (segs ++ chunks C twts).map some
          lineCount := (segs ++ chunks C twts).map List.length
          fileNum := segs.length + (chunks C twts).length } := by
  intro n
  induction n with
  | zero =>
    intro twts s segs fuel hn hne _ _ _ _
    exact absurd (List.length_eq_zero.1 (Nat.le_zero.1 hn)) hne
  | succ n ih =>
    intro twts s segs fuel hn hne hfuel hfiles hlc hfn
    have hpos : 0 < twts.length := List.length_pos.2 hne
    obtain ⟨f, rfl⟩ : ∃ f, fuel = f + 1 := ⟨fuel - 1, by omega⟩
    rw [saveExpGo_fresh_step C f hC s segs twts hne hfiles hlc]
    by_cases hover : C < twts.length
    · rw [if_pos hover]
      have hchu : chunks C twts = twts.take C :: chunks C (twts.drop C) :=
        chunks_cons_of_lt C hC twts hover
      have htkC : (twts.take C).length = C := by simp [Nat.le_of_lt hover]
      have hrec := ih (twts.drop C)
        { s with
          files := (segs ++ [twts.take C]).map some
          lineCount := (segs ++ [twts.take C]).map List.length
          fileNum := segs.length + 2 }
        (segs ++ [twts.take C]) f
        (by simp; omega)
        (by simp [List.drop_eq_nil_iff]; omega)
        (by simp; omega)
        (by simp)
        (by simp)
        (by simp)
      have hlen1 : (segs ++ [twts.take C]).length = segs.length + 1 := by simp
      rw [hlen1] at hrec
      rw [hrec, hchu]
      have harith : segs.length + 1 + (chunks C (twts.drop C)).length =
          segs.length + ((chunks C (twts.drop C)).length + 1) := by omega
      simp only [List.append_assoc, List.singleton_append, List.length_cons, harith]
    · rw [if_neg hover]
      have hchu : chunks C twts = [twts] :=
        chunks_eq_single C twts hne (Nat.le_of_not_lt hover)
      rw [hchu, hfn]
      simp

theorem setIdxAdd_zero (lc : List Nat) (i : Nat) (h : i < lc.length) :
    setIdxAdd lc i 0 = lc := by
  simp [setIdxAdd, h]

theorem saveExpGo_last_step (C f : Nat) (hC : 1 ≤ C) (s : KTState)
    (A : List (List TweetId)) (h : List TweetId) (twts : List TweetId)
    (hne : twts ≠ [])
    (hfiles : s.files = (A ++ [h]).map some)
    (hlc : s.lineCount = (A ++ [h]).map List.length) :
    saveExpGo C (f + 1) s (A.length + 1) twts =
      if h.length < C then
        if C < h.length + twts.length then
          saveExpGo C f
            { s with
              files := (A ++ [h ++ twts.take (C - h.length)]).map some
              lineCount := (A ++ [h ++ twts.take (C - h.length)]).map List.length
              fileNum := A.length + 2 }
            (A.length + 2) (twts.drop (C - h.length))
        else
          { s with
            files := (A ++ [h ++ twts]).map some
            lineCount := (A ++ [h ++ twts]).map List.length }
      else
        saveExpGo C f { s with fileNum := A.length + 2 } (A.length + 2) twts := by
  have hpos : 0 < twts.length := List.length_pos.2 hne
  rw [saveExpGo_step]
  rw [if_neg (by omega)]
  simp only [Nat.add_sub_cancel, hlc, hfiles, getD_map_length_last]
  by_cases hhl : h.length < C
  · simp only [if_pos hhl, writeSeg_last]
    by_cases hrot : C < h.length + twts.length
    · rw [if_pos hrot, if_pos hrot]
      have hmin : min (C - h.length) twts.length = C - h.length :=
        Nat.min_eq_left (by omega)
      rw [hmin]
      have hcount : C - h.length ≠ 0 := by omega
      rw [setIdxAdd_last A h (C - h.length) hcount]
      have htk : (twts.take (C - h.length)).length = C - h.length := by
        simp only [List.length_take]
        omega
      have hlen2 : (h ++ twts.take (C - h.length)).length = C := by
        simp only [List.length_append, htk]
        omega
      have hlceq : A.map List.length ++ [h.length + (C - h.length)] =
          (A ++ [h ++ twts.take (C - h.length)]).map List.length := by
        simp only [List.map_append, List.map_cons, List.map_nil, hlen2]
        have : h.length + (C - h.length) = C := by omega
        rw [this]
      rw [hlceq]
    · rw [if_neg hrot, if_neg hrot]
      have hmin : min (C - h.length) twts.length = twts.length :=
        Nat.min_eq_right (by omega)
      rw [hmin, List.take_length]
      have hcount : twts.length ≠ 0 := by omega
      rw [setIdxAdd_last A h twts.length hcount]
      have hlceq : A.map List.length ++ [h.length + twts.length] =
          (A ++ [h ++ twts]).map List.length := by
        simp
      rw [hlceq]
  · simp only [if_neg hhl]
    rw [if_pos (by omega)]
    rw [hlc, hfiles]
    have hz : setIdxAdd ((A ++ [h]).map List.length) A.length 0 =
        (A ++ [h]).map List.length := by
      refine setIdxAdd_zero _ _ ?_
      simp
    rw [hz, List.drop_zero]

/-- The effect of `_save_explicit` on a state whose log has the reachable
shape: the segment list evolves by `rotApp`. -/
theorem saveExplicit_shape (C : Nat) (hC : 1 ≤ C) (s : KTState)
    (segs : List (List TweetId)) (twts : List TweetId)
    (hfiles : s.files = segs.map some)
    (hlc : s.lineCount = segs.map List.length)
    (hfn : s.fileNum = max 1 segs.length) :
    saveExplicit C s twts =
      { s with
        files := (rotApp C segs twts).map some
        lineCount := (rotApp C segs twts).map List.length
        fileNum := max 1 (rotApp C segs twts).length } := by
  by_cases htw : twts = []
  · subst htw
    have h1 : saveExplicit C s [] = s := by
      rw [saveExplicit, saveExpGo_step]
      simp
    have h2 : rotApp C segs [] = segs := by
      rw [rotApp]
      simp
    rw [h1, h2, ← hfiles, ← hlc, ← hfn]
  · rcases List.eq_nil_or_concat' segs with rfl | ⟨A, h, rfl⟩
    · have hfn1 : s.fileNum = 1 := by simpa using hfn
      rw [saveExplicit, hfn1]
      have hfr := saveExpGo_fresh C hC twts.length twts s [] (twts.length + 2)
        (Nat.le_refl _) htw (by omega) (by simpa using hfiles)
        (by simpa using hlc) (by simpa using hfn1)
      simp only [List.length_nil, Nat.zero_add] at hfr
      rw [hfr]
      have hrot : rotApp C [] twts = chunks C twts := by
        rw [rotApp, if_neg htw]
        simp only [List.getLastD_nil, List.length_nil, Nat.sub_zero,
          List.dropLast_nil, List.nil_append]
        rw [if_pos (by omega : (0 : Nat) < C)]
        by_cases hsm : twts.length ≤ C
        · rw [if_pos hsm, chunks_eq_single C twts htw hsm]
        · rw [if_neg hsm, chunks_cons_of_lt C hC twts (by omega)]
          rfl
      rw [hrot]
      have hlen1 : 1 ≤ (chunks C twts).length := by
        have hcn := chunks_ne_nil C twts htw
        cases hc : chunks C twts with
        | nil => exact absurd hc hcn
        | cons a l => simp
      rw [Nat.max_eq_right hlen1]
      simp
    · have hfnA : s.fileNum = A.length + 1 := by
        rw [hfn]
        simp
      obtain ⟨f, hf⟩ : ∃ f, twts.length + 2 = f + 1 := ⟨twts.length + 1, rfl⟩
      have hfeq : f = twts.length + 1 := by omega
      rw [saveExplicit, hfnA, hf,
        saveExpGo_last_step C f hC s A h twts htw hfiles hlc]
      have hrotdef : rotApp C (A ++ [h]) twts =
          if h.length < C then
            if twts.length ≤ C - h.length then A ++ [h ++ twts]
            else A ++ [h ++ twts.take (C - h.length)] ++
              chunks C (twts.drop (C - h.length))
          else (A ++ [h]) ++ chunks C twts := by
        rw [rotApp, if_neg htw, List.getLastD_concat, List.dropLast_concat]
      by_cases hhl : h.length < C
      · by_cases hrot : C < h.length + twts.length
        · rw [if_pos hhl, if_pos hrot, hrotdef, if_pos hhl, if_neg (by omega)]
          have hdne : twts.drop (C - h.length) ≠ [] := by
            simp only [Ne, List.drop_eq_nil_iff]
            omega
          have hfr := saveExpGo_fresh C hC (twts.drop (C - h.length)).length
            (twts.drop (C - h.length))
            { s with
              files := (A ++ [h ++ twts.take (C - h.length)]).map some
              lineCount := (A ++ [h ++ twts.take (C - h.length)]).map List.length
              fileNum := A.length + 2 }
            (A ++ [h ++ twts.take (C - h.length)]) f
            (Nat.le_refl _) hdne
            (by rw [hfeq]; simp only [List.length_drop]; omega)
            (by simp) (by simp) (by simp)
          have hlenA : (A ++ [h ++ twts.take (C - h.length)]).length = A.length + 1 := by
            simp
          rw [hlenA] at hfr
          rw [hfr]
          rw [Nat.max_eq_right
            (by simp only [List.length_append, List.length_singleton]; omega)]
          simp [List.append_assoc] <;> omega
        · rw [if_pos hhl, if_neg hrot, hrotdef, if_pos hhl, if_pos (by omega)]
          rw [Nat.max_eq_right
            (by simp only [List.length_append, List.length_singleton]; omega)]
          rw [show (A ++ [h ++ twts]).length = A.length + 1 by simp, ← hfnA]
      · rw [if_neg hhl, hrotdef, if_neg hhl]
        have hfr := saveExpGo_fresh C hC twts.length twts
          { s with fileNum := A.length + 2 } (A ++ [h]) f
          (Nat.le_refl _) htw (by omega) (by simpa using hfiles)
          (by simpa using hlc) (by simp)
        have hlenA : (A ++ [h]).length = A.length + 1 := by simp
        rw [hlenA] at hfr
        rw [hfr]
        rw [Nat.max_eq_right
          (by simp only [List.length_append, List.length_singleton]; omega)]
        simp [List.append_assoc] <;> omega

/-!  Properties of `rotApp`: content and shape preservation.  -/

theorem rotApp_flatten (C : Nat) (hC : 1 ≤ C) (segs : List (List TweetId))
    (twts : List TweetId) :
    (rotApp C segs twts).flatten = segs.flatten ++ twts := by
  by_cases h0 : twts = []
  · simp [rotApp, h0]
  · rw [rotApp, if_neg h0]
    by_cases h1 : (segs.getLastD []).length < C
    · rw [if_pos h1]
      by_cases h2 : twts.length ≤ C - (segs.getLastD []).length
      · rw [if_pos h2]
        simp only [List.flatten_append, List.flatten_cons, List.flatten_nil,
          List.append_nil]
        rw [← List.append_assoc, ← flatten_dropLast_getLastD]
      · rw [if_neg h2]
        simp only [List.flatten_append, List.flatten_cons, List.flatten_nil,
          List.append_nil]
        rw [chunks_flatten C hC _ _ (Nat.le_refl _)]
        conv_rhs =>
          rw [flatten_dropLast_getLastD segs,
            ← List.take_append_drop (C - (segs.getLastD []).length) twts]
        simp [List.append_assoc]
    · rw [if_neg h1]
      simp only [List.flatten_append]
      rw [chunks_flatten C hC _ _ (Nat.le_refl _)]

theorem rotApp_dropLast_full (C : Nat) (hC : 1 ≤ C) (segs : List (List TweetId))
    (twts : List TweetId)
    (hfull : ∀ seg ∈ segs.dropLast, seg.length = C)
    (hle : ∀ seg ∈ segs, seg.length ≤ C) :
    ∀ seg ∈ (rotApp C segs twts).dropLast, seg.length = C := by
  by_cases h0 : twts = []
  · simpa [rotApp, h0] using hfull
  · rw [rotApp, if_neg h0]
    by_cases h1 : (segs.getLastD []).length < C
    · rw [if_pos h1]
      by_cases h2 : twts.length ≤ C - (segs.getLastD []).length
      · rw [if_pos h2]
        rw [List.dropLast_concat]
        exact hfull
      · rw [if_neg h2]
        intro seg hseg
        have hchne : chunks C (twts.drop (C - (segs.getLastD []).length)) ≠ [] := by
          refine chunks_ne_nil C _ ?_
          simp only [Ne, List.drop_eq_nil_iff]
          omega
        have hyne : [segs.getLastD [] ++ twts.take (C - (segs.getLastD []).length)] ++
            chunks C (twts.drop (C - (segs.getLastD []).length)) ≠ [] := by
          simp
        rw [List.append_assoc, List.dropLast_append_of_ne_nil _ hyne,
          List.dropLast_append_of_ne_nil _ hchne] at hseg
        rcases List.mem_append.1 hseg with hseg | hseg
        · exact hfull seg hseg
        · rcases List.mem_append.1 hseg with hseg | hseg
          · have hseq : seg = segs.getLastD [] ++
                twts.take (C - (segs.getLastD []).length) := by
              simpa using hseg
            rw [hseq]
            simp only [List.length_append, List.length_take]
            omega
          · exact chunks_dropLast_full C hC _ _ (Nat.le_refl _) seg hseg
    · rw [if_neg h1]
      intro seg hseg
      have hsne : segs ≠ [] := by
        intro hnil
        rw [hnil] at h1
        simp at h1
        omega
      have hchne : chunks C twts ≠ [] := chunks_ne_nil C twts h0
      rw [List.dropLast_append_of_ne_nil _ hchne] at hseg
      rcases List.mem_append.1 hseg with hseg | hseg
      · rcases mem_of_concat segs seg hseg with hseg2 | hseg2
        · exact hfull seg hseg2
        · have hlast : (segs.getLastD []).length ≤ C := by
            refine hle _ ?_
            rcases List.eq_nil_or_concat' segs with rfl | ⟨A, a, rfl⟩
            · exact absurd rfl hsne
            · rw [List.getLastD_concat]
              simp
          rw [hseg2]
          omega
      · exact chunks_dropLast_full C hC _ _ (Nat.le_refl _) seg hseg

theorem rotApp_le (C : Nat) (hC : 1 ≤ C) (segs : List (List TweetId))
    (twts : List TweetId)
    (hle : ∀ seg ∈ segs, seg.length ≤ C) :
    ∀ seg ∈ rotApp C segs twts, seg.length ≤ C := by
  by_cases h0 : twts = []
  · simpa [rotApp, h0] using hle
  · rw [rotApp, if_neg h0]
    have hdl : ∀ seg ∈ segs.dropLast, seg.length ≤ C := by
      intro seg hseg
      exact hle seg (List.dropLast_subset segs hseg)
    by_cases h1 : (segs.getLastD []).length < C
    · rw [if_pos h1]
      by_cases h2 : twts.length ≤ C - (segs.getLastD []).length
      · rw [if_pos h2]
        intro seg hseg
        rcases List.mem_append.1 hseg with hseg | hseg
        · exact hdl seg hseg
        · have hseq : seg = segs.getLastD [] ++ twts := by simpa using hseg
          rw [hseq]
          simp only [List.length_append]
          omega
      · rw [if_neg h2]
        intro seg hseg
        rcases List.mem_append.1 hseg with hseg | hseg
        · rcases List.mem_append.1 hseg with hseg | hseg
          · exact hdl seg hseg
          · have hseq : seg = segs.getLastD [] ++
                twts.take (C - (segs.getLastD []).length) := by
              simpa using hseg
            rw [hseq]
            simp only [List.length_append, List.length_take]
            omega
        · exact chunks_length_le C hC _ _ (Nat.le_refl _) seg hseg
    · rw [if_neg h1]
      intro seg hseg
      rcases List.mem_append.1 hseg with hseg | hseg
      · exact hle seg hseg
      · exact chunks_length_le C hC _ _ (Nat.le_refl _) seg hseg

/-!  The full `save_to_file` call on a state with a clean temp buffer, and
folds of appends.  -/

theorem clampCap_bounds (raw : Int) :
    1000 ≤ clampCap raw ∧ clampCap raw ≤ 10000 := by
  rw [clampCap]
  omega

theorem saveExplicit_nil (C : Nat) (s : KTState) : saveExplicit C s [] = s := by
  rw [saveExplicit, saveExpGo_step]
  simp

theorem logShape_saveExplicit (C : Nat) (hC : 1 ≤ C) (s : KTState)
    (segs : List (List TweetId)) (twts : List TweetId)
    (hsh : LogShape C s segs) :
    LogShape C (saveExplicit C s twts) (rotApp C segs twts) := by
  obtain ⟨hfiles, hlc, hfn, hfull, hle⟩ := hsh
  rw [saveExplicit_shape C hC s segs twts hfiles hlc hfn]
  exact ⟨rfl, rfl, rfl, rotApp_dropLast_full C hC segs twts hfull hle,
    rotApp_le C hC segs twts hle⟩

theorem saveExplicit_temp (C : Nat) (s : KTState) (twts : List TweetId) :
    ∀ fuel fnum, (saveExpGo C fuel s fnum twts).tempDir = s.tempDir ∧
      (saveExpGo C fuel s fnum twts).tempFiles = s.tempFiles ∧
      (saveExpGo C fuel s fnum twts).tempFileNum = s.tempFileNum := by
  intro fuel
  induction fuel generalizing s twts with
  | zero => intro fnum; exact ⟨rfl, rfl, rfl⟩
  | succ f ih =>
    intro fnum
    rw [saveExpGo_step]
    by_cases h0 : twts.length = 0
    · rw [if_pos h0]
      exact ⟨rfl, rfl, rfl⟩
    · rw [if_neg h0]
      by_cases h1 : s.lineCount.getD (fnum - 1) 0 < C
      · simp only [if_pos h1]
        by_cases h2 : C < s.lineCount.getD (fnum - 1) 0 + twts.length
        · rw [if_pos h2]
          exact ih _ _ _
        · rw [if_neg h2]
          exact ⟨rfl, rfl, rfl⟩
      · simp only [if_neg h1]
        by_cases h2 : C < s.lineCount.getD (fnum - 1) 0 + twts.length
        · rw [if_pos h2]
          exact ih _ _ _
        · rw [if_neg h2]
          exact ⟨rfl, rfl, rfl⟩

theorem saveToFile_tempClean (raw : Int) (s : KTState) (twts : List TweetId)
    (hclean : TempClean s) :
    saveToFile s twts raw = saveExplicit (clampCap raw) s twts ∧
    TempClean (saveToFile s twts raw) := by
  obtain ⟨hdir, hfiles, hnum⟩ := hclean
  have htd : (saveExplicit (clampCap raw) s twts).tempDir = false := by
    rw [saveExplicit]
    rw [(saveExplicit_temp (clampCap raw) s twts _ _).1, hdir]
  have htf : (saveExplicit (clampCap raw) s twts).tempFiles = [] := by
    rw [saveExplicit]
    rw [(saveExplicit_temp (clampCap raw) s twts _ _).2.1, hfiles]
  have htn : (saveExplicit (clampCap raw) s twts).tempFileNum = none := by
    rw [saveExplicit]
    rw [(saveExplicit_temp (clampCap raw) s twts _ _).2.2, hnum]
  have hrev : revolveTempFiles (saveExplicit (clampCap raw) s twts) = [] := by
    rw [revolveTempFiles, htd]
    simp
  constructor
  · rw [saveToFile, hrev]
    simp only [List.foldl_nil]
    rw [if_neg (by rw [htd]; simp)]
  · rw [saveToFile, hrev]
    simp only [List.foldl_nil]
    rw [if_neg (by rw [htd]; simp)]
    exact ⟨htd, htf, htn⟩

theorem foldl_saveToFile_shape (raw : Int) (batches : List (List TweetId)) :
    ∀ (s : KTState) (segs : List (List TweetId)),
      LogShape (clampCap raw) s segs → TempClean s →
      LogShape (clampCap raw)
          (batches.foldl (fun st b => saveToFile st b raw) s)
          (batches.foldl (rotApp (clampCap raw)) segs) ∧
        TempClean (batches.foldl (fun st b => saveToFile st b raw) s) := by
  have hC : 1 ≤ clampCap raw := by
    have := clampCap_bounds raw
    omega
  induction batches with
  | nil => intro s segs hsh hcl; exact ⟨hsh, hcl⟩
  | cons b bs ih =>
    intro s segs hsh hcl
    simp only [List.foldl_cons]
    have heq := saveToFile_tempClean raw s b hcl
    rw [heq.1]
    exact ih (saveExplicit (clampCap raw) s b) (rotApp (clampCap raw) segs b)
      (logShape_saveExplicit (clampCap raw) hC s segs b hsh)
      (heq.1 ▸ heq.2)

theorem foldl_rotApp_flatten (C : Nat) (hC : 1 ≤ C)
    (batches : List (List TweetId)) :
    ∀ segs, (batches.foldl (rotApp C) segs).flatten =
      segs.flatten ++ batches.flatten := by
  induction batches with
  | nil => intro segs; simp
  | cons b bs ih =>
    intro segs
    simp only [List.foldl_cons, List.flatten_cons]
    rw [ih (rotApp C segs b), rotApp_flatten C hC segs b]
    simp [List.append_assoc]

theorem initKTState_shape (C : Nat) : LogShape C initKTState [] := by
  refine ⟨rfl, rfl, rfl, ?_, ?_⟩ <;> simp

theorem initKTState_tempClean : TempClean initKTState := ⟨rfl, rfl, rfl⟩

/-!  Reading a shaped store.  -/

theorem clampLoad_pos (limit : Int) : 1 ≤ clampLoad limit := by
  rw [clampLoad]
  split
  · omega
  · rename_i hcond
    omega

theorem clampLoad_of_range (limit : Int) (h1 : 1 ≤ limit) (h2 : limit ≤ 10000) :
    clampLoad limit = limit.toNat := by
  rw [clampLoad, if_neg (by omega)]

theorem loadFromFile_shape (C : Nat) (s : KTState) (segs : List (List TweetId))
    (hsh : LogShape C s segs) (hnd : ∀ seg ∈ segs, seg.Nodup) (limit : Int) :
    loadFromFile s limit = .ok (segs.flatten.reverse.take (clampLoad limit)) := by
  obtain ⟨hfiles, hlc, hfn, _, _⟩ := hsh
  rw [loadFromFile, hfiles, hfn]
  rcases List.eq_nil_or_concat' segs with rfl | ⟨A, a, rfl⟩
  · simp only [List.map_nil, List.length_nil]
    rw [show max 1 0 = 0 + 1 from rfl, loadAux]
    simp [List.getD]
  · have hlen : max 1 (A ++ [a]).length = (A ++ [a]).length := by
      simp
    rw [hlen]
    rw [loadAux_map_some (A ++ [a]) (clampLoad limit) (clampLoad_pos limit) hnd]

/-!  Staging and consolidation.  -/

theorem saveTemp_log (s : KTState) (b : List TweetId) :
    (saveTemp s b).fileNum = s.fileNum ∧
    (saveTemp s b).lineCount = s.lineCount ∧
    (saveTemp s b).files = s.files := by
  rw [saveTemp]
  exact ⟨rfl, rfl, rfl⟩

theorem foldl_saveTemp_log (batches : List (List TweetId)) :
    ∀ s : KTState,
      ((batches.foldl saveTemp s).fileNum = s.fileNum ∧
        (batches.foldl saveTemp s).lineCount = s.lineCount ∧
        (batches.foldl saveTemp s).files = s.files) := by
  induction batches with
  | nil => intro s; exact ⟨rfl, rfl, rfl⟩
  | cons b bs ih =>
    intro s
    simp only [List.foldl_cons]
    have h1 := ih (saveTemp s b)
    have h2 := saveTemp_log s b
    exact ⟨h1.1.trans h2.1, h1.2.1.trans h2.2.1, h1.2.2.trans h2.2.2⟩

theorem foldl_saveTemp_temp (batches : List (List TweetId)) :
    ∀ (s : KTState) (L : List (List TweetId)),
      s.tempFiles = L.map some → s.tempFileNum = some (L.length + 1) →
      s.tempDir = true →
      ((batches.foldl saveTemp s).tempFiles = (L ++ batches).map some ∧
        (batches.foldl saveTemp s).tempFileNum = some (L.length + batches.length + 1) ∧
        (batches.foldl saveTemp s).tempDir = true) := by
  induction batches with
  | nil =>
    intro s L h1 h2 h3
    simp only [List.foldl_nil, List.append_nil, List.length_nil]
    exact ⟨h1, by rw [h2], h3⟩
  | cons b bs ih =>
    intro s L h1 h2 h3
    simp only [List.foldl_cons]
    have hstep : (saveTemp s b).tempFiles = (L ++ [b]).map some ∧
        (saveTemp s b).tempFileNum = some ((L ++ [b]).length + 1) ∧
        (saveTemp s b).tempDir = true := by
      rw [saveTemp, h2]
      refine ⟨?_, by simp, rfl⟩
      simp only [Option.getD_some, Nat.add_sub_cancel, h1]
      rw [if_neg (by simp)]
      simp
    have := ih (saveTemp s b) (L ++ [b]) hstep.1 hstep.2.1 hstep.2.2
    simpa [List.append_assoc, Nat.add_assoc, Nat.add_comm, Nat.add_left_comm]
      using this

theorem revolveList_congr :
    ∀ (n : Nat) (tf tf2 : List (Option (List TweetId))),
      (∀ i, i < n → tf.getD i none = tf2.getD i none) →
      revolveList tf n = revolveList tf2 n := by
  intro n
  induction n with
  | zero => intro tf tf2 _; rfl
  | succ m ih =>
    intro tf tf2 h
    rw [revolveList, revolveList, h m (Nat.lt_succ_self m),
      ih tf tf2 (fun i hi => h i (Nat.lt_succ_of_lt hi))]

theorem revolveList_map_some (L : List (List TweetId)) :
    revolveList (L.map some) L.length = L.reverse := by
  induction L using List.reverseRecOn with
  | nil => rfl
  | append_singleton A a ih =>
    have hlen : (A ++ [a]).length = A.length + 1 := by simp
    rw [hlen, revolveList]
    have hget : ((A ++ [a]).map some).getD A.length none = some a := by
      rw [getD_map_some_of_lt _ _ (by simp)]
      simp [List.getD_eq_getElem?_getD]
    rw [hget]
    have hcongr : revolveList ((A ++ [a]).map some) A.length =
        revolveList (A.map some) A.length := by
      refine revolveList_congr A.length _ _ ?_
      intro i hi
      rw [getD_map_some_of_lt _ _ (by simp; omega), getD_map_some_of_lt _ _ hi]
      have : (A ++ [a]).getD i [] = A.getD i [] := by
        simp [List.getD_eq_getElem?_getD, List.getElem?_append_left hi]
      rw [this]
    rw [hcongr, ih]
    simp

theorem revolveList_beyond (L : List (List TweetId)) :
    revolveList (L.map some) (L.length + 1) = L.reverse := by
  rw [revolveList]
  rw [getD_map_some_of_le _ _ (by simp)]
  simpa using revolveList_map_some L

theorem foldl_saveExplicit_shape (C : Nat) (hC : 1 ≤ C)
    (batches : List (List TweetId)) :
    ∀ (s : KTState) (segs : List (List TweetId)), LogShape C s segs →
      batches.foldl (fun st b => saveExplicit C st b) s =
        { s with
          files := (batches.foldl (rotApp C) segs).map some
          lineCount := (batches.foldl (rotApp C) segs).map List.length
          fileNum := max 1 (batches.foldl (rotApp C) segs).length } := by
  induction batches with
  | nil =>
    intro s segs hsh
    obtain ⟨hfiles, hlc, hfn, _, _⟩ := hsh
    simp only [List.foldl_nil]
    rw [← hfiles, ← hlc, ← hfn]
  | cons b bs ih =>
    intro s segs hsh
    simp only [List.foldl_cons]
    obtain ⟨hfiles, hlc, hfn, hfull, hle⟩ := hsh
    have hstep := saveExplicit_shape C hC s segs b hfiles hlc hfn
    have hsh2 : LogShape C (saveExplicit C s b) (rotApp C segs b) := by
      rw [hstep]
      exact ⟨rfl, rfl, rfl, rotApp_dropLast_full C hC segs b hfull hle,
        rotApp_le C hC segs b hle⟩
    rw [ih (saveExplicit C s b) (rotApp C segs b) hsh2, hstep]

theorem map_getD_map_some (segs : List (List TweetId)) :
    (segs.map some).map (fun f => Option.getD f []) = segs := by
  induction segs with
  | nil => rfl
  | cons a l ih => simp [ih]

theorem joined_of_map_some (s : KTState) (segs : List (List TweetId))
    (h : s.files = segs.map some) : joined s = segs.flatten := by
  rw [joined, h, map_getD_map_some]

/-!  Facts about the metadata store.  -/

theorem pdLookup_pdStore_ne (l : List (PDKey × PDRec)) (k k0 : PDKey)
    (r : PDRec) (hne : k ≠ k0) :
    pdLookup (pdStore l k0 r) k = pdLookup l k := by
  induction l with
  | nil =>
    simp only [pdStore, pdLookup]
    rw [if_neg (by simpa using hne.symm)]
  | cons p rest ih =>
    rw [pdStore]
    by_cases hp : p.1 = k0
    · rw [if_pos hp, pdLookup, pdLookup, if_neg (by simpa using hne.symm),
        if_neg (by rw [hp]; simpa using hne.symm)]
    · rw [if_neg hp, pdLookup, pdLookup]
      by_cases hpk : p.1 = k
      · rw [if_pos hpk, if_pos hpk]
      · rw [if_neg hpk, if_neg hpk, ih]

theorem pdLookup_setDataWith_ne (ps : PDState) (k k0 : PDKey)
    (f : PDRec → PDRec × Bool) (hne : k ≠ k0) :
    pdLookup (setDataWith ps k0 f).loaded k = pdLookup ps.loaded k := by
  rw [setDataWith]
  have hdef : pdLookup (defaultIfNonexistent ps k0).loaded k = pdLookup ps.loaded k := by
    rw [defaultIfNonexistent]
    cases h : pdLookup ps.loaded k0 with
    | some r => rfl
    | none =>
      simp only
      exact pdLookup_pdStore_ne ps.loaded k k0 {} hne
  by_cases hch : (f ((pdLookup (defaultIfNonexistent ps k0).loaded k0).getD {})).2
  · rw [if_pos hch]
    simp only
    rw [pdLookup_pdStore_ne _ k k0 _ hne, hdef]
  · rw [if_neg hch]
    exact hdef

theorem pdLookup_pdStore_self (l : List (PDKey × PDRec)) (k : PDKey) (r : PDRec) :
    pdLookup (pdStore l k r) k = some r := by
  induction l with
  | nil => simp [pdStore, pdLookup]
  | cons p rest ih =>
    rw [pdStore]
    by_cases hp : p.1 = k
    · rw [if_pos hp, pdLookup, if_pos rfl]
    · rw [if_neg hp, pdLookup, if_neg hp, ih]

theorem pdLookup_setDataWith_isSome (ps : PDState) (k : PDKey)
    (f : PDRec → PDRec × Bool) :
    (pdLookup (setDataWith ps k f).loaded k).isSome := by
  rw [setDataWith]
  have hdef : (pdLookup (defaultIfNonexistent ps k).loaded k).isSome := by
    rw [defaultIfNonexistent]
    cases h : pdLookup ps.loaded k with
    | some r => simp [h]
    | none =>
      simp only
      rw [pdLookup_pdStore_self]
      rfl
  by_cases hch : (f ((pdLookup (defaultIfNonexistent ps k).loaded k).getD {})).2
  · rw [if_pos hch]
    simp only
    rw [pdLookup_pdStore_self]
    rfl
  · rw [if_neg hch]
    exact hdef

/-!  Claim theorems.  -/

/-- Claim C10: the request budget invariant of `twitter_api_bot`:
`requests_count` never exceeds `max_requests` (50) during a run;
`connect_to_endpoint` raises `RequestCountError` before issuing any network
request once the count has reached the maximum; and the count is incremented
only after a status-200 response, so a non-success request consumes no
budget. -/
theorem c10_request_budget_invariant :
    (∀ (c : Nat) (statuses : List Nat), c ≤ maxRequests →
      runCounts c statuses ≤ maxRequests) ∧
    (∀ c status, maxRequests ≤ c →
      connectToEndpoint c status = (false, .error .requestCount)) ∧
    (∀ c status, c < maxRequests → status ≠ 200 →
      (connectToEndpoint c status).1 = true ∧ countAfter c status = c) := by
  refine ⟨?_, ?_, ?_⟩
  · have hstep : ∀ c status, c ≤ maxRequests → countAfter c status ≤ maxRequests := by
      intro c status hc
      rw [countAfter, connectToEndpoint]
      by_cases h1 : maxRequests ≤ c
      · rw [if_pos h1]
        exact hc
      · rw [if_neg h1]
        by_cases h2 : status ≠ 200
        · rw [if_pos h2]
          exact hc
        · rw [if_neg h2]
          simp only
          omega
    intro c statuses
    induction statuses generalizing c with
    | nil => intro hc; exact hc
    | cons st rest ih =>
      intro hc
      rw [runCounts, List.foldl_cons]
      exact ih (countAfter c st) (hstep c st hc)
  · intro c status h
    rw [connectToEndpoint, if_pos h]
  · intro c status h1 h2
    constructor
    · rw [connectToEndpoint, if_neg (by omega), if_pos h2]
    · rw [countAfter, connectToEndpoint, if_neg (by omega), if_pos h2]

/-- Witness for claim C10 at concrete inputs. -/
theorem c10_request_budget_invariant_witness :
    runCounts 0 [200, 404, 200] ≤ maxRequests ∧
    connectToEndpoint 50 200 = (false, .error .requestCount) ∧
    ((connectToEndpoint 3 404).1 = true ∧ countAfter 3 404 = 3) :=
  ⟨c10_request_budget_invariant.1 0 [200, 404, 200] (by decide),
   c10_request_budget_invariant.2.1 50 200 (by decide),
   c10_request_budget_invariant.2.2 3 404 (by decide) (by decide)⟩

/-- Claim C2 (the code at the failing input): when the generator raises
`RequestCountError` (request budget exhausted), `process_usr_for_liked`
does NOT convert it into `halt = 1` — the exception escapes the function,
because the `try` block catches only `UnsuccessfulRequestError`; an
`UnsuccessfulRequestError` on the other hand IS converted into `halt = 1`. -/
theorem c2_requestcount_not_converted :
    processUsrForLiked [] false [.error .requestCount] 0 0 =
      .error .requestCount ∧
    processUsrForLiked [] false [.error .unsuccessful] 0 0 = .ok (1, 0, 0) :=
  ⟨rfl, rfl⟩

/-- Claim C8: in `load_from_file`, a missing segment file numbered 1 yields
what has been collected so far (the empty history is not an error), while a
missing segment file numbered above 1 raises the fatal "requires repair"
error instead of silently truncating history. -/
theorem c8_missing_segment (s : KTState) (limit : Int) (fnum : Nat)
    (hmiss : s.files.getD (fnum - 1) none = none) :
    (fnum = 1 → loadAux s.files fnum (clampLoad limit) = .ok []) ∧
    (1 < fnum → loadAux s.files fnum (clampLoad limit) = .error .repairNeeded) ∧
    (s.fileNum = fnum → fnum = 1 → loadFromFile s limit = .ok []) ∧
    (s.fileNum = fnum → 1 < fnum → loadFromFile s limit = .error .repairNeeded) := by
  have h1 : ∀ lim : Nat, fnum = 1 → loadAux s.files fnum lim = .ok [] := by
    intro lim he
    subst he
    have hm : s.files.getD 0 none = none := by simpa using hmiss
    rw [show (1 : Nat) = 0 + 1 from rfl, loadAux, hm]
    simp
  have h2 : ∀ lim : Nat, 1 < fnum → loadAux s.files fnum lim = .error .repairNeeded := by
    intro lim hgt
    obtain ⟨m, rfl⟩ : ∃ m, fnum = m + 1 := ⟨fnum - 1, by omega⟩
    have hm : s.files.getD m none = none := by simpa using hmiss
    rw [loadAux, hm]
    rw [if_neg (by omega)]
  refine ⟨h1 _, h2 _, ?_, ?_⟩
  · intro hfn he
    rw [loadFromFile, hfn]
    exact h1 _ he
  · intro hfn hgt
    rw [loadFromFile, hfn]
    exact h2 _ hgt

/-- Witness for claim C8 on the never-synced store. -/
theorem c8_missing_segment_witness :
    initKTState.files.getD 0 none = none ∧
    loadFromFile initKTState 3000 = .ok [] :=
  ⟨rfl, (c8_missing_segment initKTState 3000 1 rfl).2.2.1 rfl rfl⟩

/-- Counterexample to claim C6 as stated: a line repeated across two distinct
segment files survives into the result of `load_from_file(limit=0)`, so the
returned list is NOT duplicate-free. -/
theorem c6_counterexample :
    loadFromFile c6CexState 0 = .ok [7, 7] ∧
    ¬ ([7, 7] : List TweetId).Nodup := by
  constructor
  · rfl
  · decide

/-- Claim C6 (amended): `load_from_file` with `limit <= 0` behaves exactly
like `limit = 10000` (the clamp maps every out-of-range limit to 10000, so at
most the 10000 most recent IDs are returned — the entire history only when it
has at most 10000 entries), and the IDs read out of any single segment are
duplicate-free even if that segment was corrupted into containing a repeated
line; a line repeated across distinct segments is not deduplicated. -/
theorem c6_amended :
    (∀ (s : KTState) (limit : Int), limit ≤ 0 →
      loadFromFile s limit = loadFromFile s 10000) ∧
    (∀ (ls twts : List TweetId) (count lim : Nat), twts.Nodup →
      (revRead ls twts count lim).1.Nodup) := by
  constructor
  · intro s limit h
    rw [loadFromFile, loadFromFile]
    have hcl : clampLoad limit = clampLoad 10000 := by
      rw [clampLoad, clampLoad, if_pos (by omega), if_neg (by omega)]
      rfl
    rw [hcl]
  · intro ls twts count lim h
    exact revRead_fst_nodup ls twts count lim h

/-- Witness for claim C6 (amended) at concrete inputs. -/
theorem c6_amended_witness :
    loadFromFile c6CexState (-1) = loadFromFile c6CexState 10000 ∧
    (revRead [7] [] 0 10000).1.Nodup :=
  ⟨c6_amended.1 c6CexState (-1) (by decide),
   c6_amended.2 [7] [] 0 10000 (by decide)⟩

/-- Counterexample to claim C9 as stated: after one mutation and one flush,
a second flush with no intervening mutation still performs a write for the
previously dirtied ID (`_data_modified` is never cleared), contradicting
"no writes for IDs that were not dirtied in between". -/
theorem c9_counterexample :
    (pdSaveToFile (pdSaveToFile (setDataWith {} (some "A") (incLikedCount 5))).1).2 =
      (pdSaveToFile (setDataWith {} (some "A") (incLikedCount 5))).2 ∧
    (pdSaveToFile (pdSaveToFile (setDataWith {} (some "A") (incLikedCount 5))).1).2 ≠ [] := by
  constructor
  · rfl
  · decide

/-- Claim C9 (amended): `persistent_data.save_to_file` serializes a full
record snapshot for every ID ever marked dirty since the store was loaded —
the dirty list is never cleared by a flush — and flushing twice with no
intervening mutation writes identical snapshot bytes the second time as the
first (the flush itself changes neither the loaded records nor the dirty
list). -/
theorem c9_amended (ps : PDState) :
    (pdSaveToFile ps).2 =
      ps.modified.map (fun k => (k, (pdLookup ps.loaded k).getD {})) ∧
    (pdSaveToFile ps).1.loaded = ps.loaded ∧
    (pdSaveToFile ps).1.modified = ps.modified ∧
    (pdSaveToFile (pdSaveToFile ps).1).2 = (pdSaveToFile ps).2 :=
  ⟨rfl, rfl, rfl, rfl⟩

/-- Claim C1 (the code at the failing input): the post-loop commit step of
`main` leaves the identifier log of the synced user untouched (no
`known_tweets_handler` save is ever invoked, so the accumulated newly-seen IDs
are lost) and leaves that user's metadata record untouched as well — the three
counter updates are stored under the Python builtin `id` (key `none`), not
under `usr_id`. -/
theorem c1_commit_step (tc ic rc : Int) (ms : MainState) (u : String) :
    (mainCommit tc ic rc ms).logs u = ms.logs u ∧
    pdLookup (mainCommit tc ic rc ms).pds.loaded (some u) =
      pdLookup ms.pds.loaded (some u) ∧
    (pdLookup (mainCommit tc ic rc ms).pds.loaded none).isSome := by
  refine ⟨rfl, ?_, ?_⟩
  · rw [mainCommit]
    simp only
    rw [pdLookup_setDataWith_ne _ _ none _ (by simp),
      pdLookup_setDataWith_ne _ _ none _ (by simp),
      pdLookup_setDataWith_ne _ _ none _ (by simp)]
  · rw [mainCommit]
    simp only
    exact pdLookup_setDataWith_isSome _ none _

/-- Counterexample to claim C3 as stated: an item whose ID is in the loaded
known set but which carries no media attachments is skipped by the `continue`
before the duplicate check, so the engine does NOT set halt=DuplicateFound
for it. -/
theorem c3_counterexample :
    processResponse [5] false [{ id := 5, hasAttachments := false, imgs := 0 }] =
      ⟨0, 0, 0, [], []⟩ ∧
    (processResponse [5] false
        [{ id := 5, hasAttachments := false, imgs := 0 }]).halt ≠ 2 := by
  constructor
  · decide
  · decide

/-- Claim C3 (amended): items without media attachments are skipped before the
duplicate check; for every item bearing attachments, in order received, if
`ignore_processed` is false and its ID is in the loaded known set the engine
sets halt=2 (DuplicateFound) and stops processing that item and all subsequent
items; a halted page stops all subsequent pages.  In particular, with known
IDs {5,4,3} and the page [7,6,5,4,3] all bearing attachments, exactly 7 and 6
are marked newly-seen, the run halts at 5, and 4 and 3 are never inspected. -/
theorem c3_amended :
    (∀ (known : List TweetId) (ignore : Bool) (t : Tweet) (rest : List Tweet),
      t.hasAttachments = false →
      processResponse known ignore (t :: rest) = processResponse known ignore rest) ∧
    (∀ (known : List TweetId) (t : Tweet) (rest : List Tweet),
      t.hasAttachments = true → t.id ∈ known →
      processResponse known false (t :: rest) =
        { halt := 2, imgCount := 0, tweetCount := 0, newSeen := [],
          inspected := [t.id] }) ∧
    processResponse [5, 4, 3] false dedupScenarioPage =
      { halt := 2, imgCount := 0, tweetCount := 2, newSeen := [7, 6],
        inspected := [7, 6, 5] } ∧
    (∀ rest : List (Except ApiErr (List Tweet)),
      processUsrForLiked [5, 4, 3] false (.ok dedupScenarioPage :: rest) 0 0 =
        .ok (2, 0, 2)) := by
  refine ⟨?_, ?_, by decide, ?_⟩
  · intro known ignore t rest h
    rw [processResponse, if_pos h]
  · intro known t rest h1 h2
    rw [processResponse, if_neg (by rw [h1]; simp), if_pos ⟨rfl, h2⟩]
  · intro rest
    rfl

/-- Witness for claim C3 (amended) at concrete inputs. -/
theorem c3_amended_witness :
    processResponse [1] false [Tweet.mk 9 false 0, Tweet.mk 1 true 0] =
      processResponse [1] false [Tweet.mk 1 true 0] ∧
    processResponse [1] false [Tweet.mk 1 true 0] =
      { halt := 2, imgCount := 0, tweetCount := 0, newSeen := [],
        inspected := [1] } ∧
    processUsrForLiked [5, 4, 3] false [.ok dedupScenarioPage] 0 0 = .ok (2, 0, 2) :=
  ⟨c3_amended.1 [1] false (Tweet.mk 9 false 0) [Tweet.mk 1 true 0] rfl,
   c3_amended.2.1 [1] (Tweet.mk 1 true 0) [] rfl (by decide),
   c3_amended.2.2.2 []⟩

/-- Counterexample to claim C4 as stated: appending 10001 distinct IDs and
loading with `limit = 10001` does not return all of them reversed — the limit
is clamped to 10000, so only the 10000 most recent IDs come back. -/
theorem c4_counterexample :
    loadFromFile (saveToFile initKTState (List.range 10001) 5000) 10001 ≠
      .ok (List.range 10001).reverse := by
  intro h
  rw [loadFromFile] at h
  have hle := loadAux_length_le _ _ _ _ h
  have hcl : clampLoad 10001 = 10000 := by
    rw [clampLoad, if_pos (by omega)]
  rw [hcl] at hle
  simp at hle

/-- Claim C4 (amended): for every sequence of at most 10000 distinct IDs
appended in order via `save_to_file` (any fixed capacity argument), a
subsequent `load_from_file` with `limit = n` (n the number of appended IDs)
returns exactly the appended IDs in newest-to-oldest order; above 10000 the
limit is clamped and only the 10000 newest IDs are returned. -/
theorem c4_reverse_read (raw : Int) (batches : List (List TweetId))
    (hnd : batches.flatten.Nodup) (hlen : batches.flatten.length ≤ 10000) :
    loadFromFile (batches.foldl (fun st b => saveToFile st b raw) initKTState)
        (batches.flatten.length : Int) =
      .ok batches.flatten.reverse := by
  have hC : 1 ≤ clampCap raw := by
    have := clampCap_bounds raw
    omega
  have hfold := foldl_saveToFile_shape raw batches initKTState []
    (initKTState_shape _) initKTState_tempClean
  have hflat : (batches.foldl (rotApp (clampCap raw)) []).flatten = batches.flatten := by
    rw [foldl_rotApp_flatten (clampCap raw) hC batches []]
    rfl
  have hndsegs : ∀ seg ∈ batches.foldl (rotApp (clampCap raw)) [], seg.Nodup := by
    have hj : (batches.foldl (rotApp (clampCap raw)) []).flatten.Nodup := by
      rw [hflat]
      exact hnd
    exact (List.nodup_flatten.1 hj).1
  have hload := loadFromFile_shape (clampCap raw)
    (batches.foldl (fun st b => saveToFile st b raw) initKTState)
    (batches.foldl (rotApp (clampCap raw)) []) hfold.1 hndsegs
    (batches.flatten.length : Int)
  rw [hload, hflat]
  by_cases h0 : batches.flatten.length = 0
  · have hnil : batches.flatten = [] := List.length_eq_zero.1 h0
    rw [hnil]
    simp
  · have hcl : clampLoad (batches.flatten.length : Int) = batches.flatten.length := by
      rw [clampLoad_of_range _ (by omega) (by omega)]
      exact Int.toNat_natCast _
    rw [hcl, List.take_of_length_le (by simp)]

/-- Witness for claim C4 (amended) at concrete inputs. -/
theorem c4_reverse_read_witness :
    ([[1, 2]] : List (List TweetId)).flatten.Nodup ∧
    loadFromFile
        (List.foldl (fun st b => saveToFile st b 5000) initKTState [[1, 2]])
        (([[1, 2]] : List (List TweetId)).flatten.length : Int) =
      .ok ([[1, 2]] : List (List TweetId)).flatten.reverse :=
  ⟨by decide, c4_reverse_read 5000 [[1, 2]] (by decide) (by decide)⟩

theorem rotApp_nil_segs (C : Nat) (hC : 1 ≤ C) (twts : List TweetId) :
    rotApp C [] twts = chunks C twts := by
  by_cases htw : twts = []
  · subst htw
    rw [rotApp, if_pos rfl]
    simp [chunks]
  · rw [rotApp, if_neg htw]
    simp only [List.getLastD_nil, List.length_nil, Nat.sub_zero,
      List.dropLast_nil, List.nil_append]
    rw [if_pos (by omega : (0 : Nat) < C)]
    by_cases hsm : twts.length ≤ C
    · rw [if_pos hsm, chunks_eq_single C twts htw hsm]
    · rw [if_neg hsm, chunks_cons_of_lt C hC twts (by omega)]
      rfl

theorem chunks_range2500 :
    (chunks 1000 (List.range 2500)).map List.length = [1000, 1000, 500] := by
  have e1 : chunks 1000 (List.range 2500) =
      (List.range 2500).take 1000 :: chunks 1000 ((List.range 2500).drop 1000) :=
    chunks_cons_of_lt 1000 (by omega) _ (by simp)
  have e2 : chunks 1000 ((List.range 2500).drop 1000) =
      ((List.range 2500).drop 1000).take 1000 ::
        chunks 1000 (((List.range 2500).drop 1000).drop 1000) :=
    chunks_cons_of_lt 1000 (by omega) _ (by simp)
  have e3 : chunks 1000 (((List.range 2500).drop 1000).drop 1000) =
      [((List.range 2500).drop 1000).drop 1000] := by
    refine chunks_eq_single 1000 _ ?_ ?_
    · simp [List.drop_eq_nil_iff]
    · simp
  rw [e1, e2, e3]
  simp

theorem range2500_reverse_take :
    (List.range 2500).reverse.take 1500 = (List.range' 1000 1500).reverse := by
  have hsplit : List.range 2500 = List.range' 0 1000 ++ List.range' 1000 1500 := by
    rw [List.range_eq_range']
    have happ := List.range'_append 0 1000 1500 1
    simp only [Nat.one_mul, Nat.zero_add] at happ
    rw [← happ]
  rw [hsplit, List.reverse_append]
  have htl := List.take_left (List.range' 1000 1500).reverse (List.range' 0 1000).reverse
  simp only [List.length_reverse, List.length_range'] at htl
  exact htl

/-- Claim C5: the rotation invariant of the identifier log.  For every
sequence of `save_to_file` calls with a fixed capacity argument (clamped into
[1000, 10000]): every non-head segment file exists and holds exactly the
capacity many lines, the head segment holds at most capacity many lines, the
total number of lines across segments equals the total number of IDs ever
appended, and the recorded per-segment line counts equal the physical counts.
Concretely, with capacity 1000 and the 2500 appended IDs 0..2499, the metadata
records file_num = 3 with line counts [1000, 1000, 500], and load(limit=1500)
returns the IDs 2499 down to 1000 in that order. -/
theorem c5_rotation_invariant (raw : Int) (batches : List (List TweetId)) :
    ((∀ f ∈ (batches.foldl (fun st b => saveToFile st b raw) initKTState).files.dropLast,
        ∃ seg, f = some seg ∧ seg.length = clampCap raw) ∧
      (∀ f ∈ (batches.foldl (fun st b => saveToFile st b raw) initKTState).files,
        ∃ seg, f = some seg ∧ seg.length ≤ clampCap raw) ∧
      (joined (batches.foldl (fun st b => saveToFile st b raw) initKTState)).length =
        batches.flatten.length ∧
      (batches.foldl (fun st b => saveToFile st b raw) initKTState).lineCount =
        (batches.foldl (fun st b => saveToFile st b raw) initKTState).files.map
          (fun f => (f.getD []).length)) ∧
    ((saveToFile initKTState (List.range 2500) 1000).fileNum = 3 ∧
      (saveToFile initKTState (List.range 2500) 1000).lineCount = [1000, 1000, 500] ∧
      loadFromFile (saveToFile initKTState (List.range 2500) 1000) 1500 =
        .ok (List.range' 1000 1500).reverse) := by
  constructor
  · have hC : 1 ≤ clampCap raw := by
      have := clampCap_bounds raw
      omega
    have hfold := foldl_saveToFile_shape raw batches initKTState []
      (initKTState_shape _) initKTState_tempClean
    obtain ⟨⟨hfiles, hlc, hfn, hfull, hle⟩, _⟩ := hfold
    refine ⟨?_, ?_, ?_, ?_⟩
    · intro fl hfl
      rw [hfiles, ← List.map_dropLast] at hfl
      obtain ⟨seg, hseg, rfl⟩ := List.mem_map.1 hfl
      exact ⟨seg, rfl, hfull seg hseg⟩
    · intro fl hfl
      rw [hfiles] at hfl
      obtain ⟨seg, hseg, rfl⟩ := List.mem_map.1 hfl
      exact ⟨seg, rfl, hle seg hseg⟩
    · rw [joined_of_map_some _ _ hfiles,
        foldl_rotApp_flatten (clampCap raw) hC batches []]
      rfl
    · rw [hfiles, hlc, List.map_map]
      simp [Function.comp_def]
  · have hclamp : clampCap 1000 = 1000 := by decide
    have hsv := saveToFile_tempClean 1000 initKTState (List.range 2500)
      initKTState_tempClean
    have hshape := saveExplicit_shape (clampCap 1000) (by omega) initKTState []
      (List.range 2500) rfl rfl rfl
    rw [hclamp] at hshape
    rw [rotApp_nil_segs 1000 (by omega) (List.range 2500)] at hshape
    have hsv1 : saveToFile initKTState (List.range 2500) 1000 =
        saveExplicit 1000 initKTState (List.range 2500) := by
      rw [hsv.1, hclamp]
    have hmap := chunks_range2500
    have hlen3 : (chunks 1000 (List.range 2500)).length = 3 := by
      have := congrArg List.length hmap
      simpa using this
    refine ⟨?_, ?_, ?_⟩
    · rw [hsv1, hshape]
      simp only
      rw [hlen3]
      decide
    · rw [hsv1, hshape]
      simp only
      exact hmap
    · have hndchunks : ∀ seg ∈ chunks 1000 (List.range 2500), seg.Nodup := by
        have hj : (chunks 1000 (List.range 2500)).flatten.Nodup := by
          rw [chunks_flatten 1000 (by omega) _ _ (Nat.le_refl _)]
          exact List.nodup_range 2500
        exact (List.nodup_flatten.1 hj).1
      have hsh2 : LogShape 1000 (saveToFile initKTState (List.range 2500) 1000)
          (chunks 1000 (List.range 2500)) := by
        rw [hsv1, hshape]
        refine ⟨rfl, rfl, rfl, ?_, ?_⟩
        · exact chunks_dropLast_full 1000 (by omega) _ _ (Nat.le_refl _)
        · exact chunks_length_le 1000 (by omega) _ _ (Nat.le_refl _)
      have hload := loadFromFile_shape 1000
        (saveToFile initKTState (List.range 2500) 1000)
        (chunks 1000 (List.range 2500)) hsh2 hndchunks 1500
      rw [hload, chunks_flatten 1000 (by omega) _ _ (Nat.le_refl _)]
      have hcl : clampLoad 1500 = 1500 := by
        rw [clampLoad, if_neg (by omega)]
        rfl
      rw [hcl, range2500_reverse_take]

/-- Claim C7: consolidation completeness.  After one or more `save_temp`
calls followed by a `save_to_file` pass, the main log contains all staged IDs
with the most-recently-staged batch appended before earlier-staged batches,
the temp buffer directory no longer exists (its files are gone) and the
`temp_db` metadata is reset to absent; and if no temp buffer exists,
consolidation changes nothing. -/
theorem c7_consolidation (raw : Int) (batches : List (List TweetId))
    (s : KTState) (segs : List (List TweetId)) (hb : batches ≠ [])
    (hsh : LogShape (clampCap raw) s segs) (hclean : TempClean s) :
    (joined (saveToFile (batches.foldl saveTemp s) [] raw) =
        joined s ++ batches.reverse.flatten ∧
      TempClean (saveToFile (batches.foldl saveTemp s) [] raw)) ∧
    (∀ t : KTState, t.tempDir = false → saveToFile t [] raw = t) := by
  have hC : 1 ≤ clampCap raw := by
    have := clampCap_bounds raw
    omega
  have hnoop : ∀ t : KTState, t.tempDir = false → saveToFile t [] raw = t := by
    intro t ht
    rw [saveToFile, saveExplicit_nil]
    have hrv : revolveTempFiles t = [] := by
      rw [revolveTempFiles, ht]
      simp
    rw [hrv]
    simp only [List.foldl_nil]
    rw [if_neg (by rw [ht]; simp)]
  refine ⟨?_, hnoop⟩
  obtain ⟨hdir, htf, htn⟩ := hclean
  obtain ⟨b, bs, rfl⟩ : ∃ b bs, batches = b :: bs := by
    cases batches with
    | nil => exact absurd rfl hb
    | cons b bs => exact ⟨b, bs, rfl⟩
  have hstep1 : saveTemp s b =
      { s with tempDir := true, tempFiles := [b].map some, tempFileNum := some 2 } := by
    rw [saveTemp, htn, htf]
    simp
  have htemp := foldl_saveTemp_temp bs (saveTemp s b) [b]
    (by rw [hstep1]) (by rw [hstep1]; rfl) (by rw [hstep1])
  have hlog := foldl_saveTemp_log bs (saveTemp s b)
  have hlog1 := saveTemp_log s b
  obtain ⟨hshf, hshl, hshn, hshfull, hshle⟩ := hsh
  set s1 := bs.foldl saveTemp (saveTemp s b) with hs1
  have hs1files : s1.files = segs.map some := by
    rw [hlog.2.2, hlog1.2.2, hshf]
  have hs1lc : s1.lineCount = segs.map List.length := by
    rw [hlog.2.1, hlog1.2.1, hshl]
  have hs1fn : s1.fileNum = max 1 segs.length := by
    rw [hlog.1, hlog1.1, hshn]
  have hs1sh : LogShape (clampCap raw) s1 segs :=
    ⟨hs1files, hs1lc, hs1fn, hshfull, hshle⟩
  have hfoldcons : (b :: bs).foldl saveTemp s = s1 := by
    rw [List.foldl_cons]
  rw [hfoldcons]
  have hrev : revolveTempFiles s1 = (b :: bs).reverse := by
    rw [revolveTempFiles, htemp.2.2]
    simp only [if_true]
    rw [htemp.1, htemp.2.1]
    simp only [Option.getD_some, List.singleton_append, List.length_singleton]
    have harith : 1 + bs.length + 1 = (b :: bs).length + 1 := by
      simp [Nat.add_comm]
    rw [harith]
    exact revolveList_beyond (b :: bs)
  rw [saveToFile, saveExplicit_nil, hrev]
  have hfold := foldl_saveExplicit_shape (clampCap raw) hC
    ((b :: bs).reverse) s1 segs hs1sh
  rw [hfold]
  have htd : ((b :: bs).reverse.foldl (rotApp (clampCap raw)) segs) =
      (b :: bs).reverse.foldl (rotApp (clampCap raw)) segs := rfl
  rw [if_pos (by rw [htemp.2.2])]
  constructor
  · rw [joined]
    simp only
    rw [map_getD_map_some]
    rw [foldl_rotApp_flatten (clampCap raw) hC ((b :: bs).reverse) segs]
    rw [joined_of_map_some s segs hshf]
  · exact ⟨rfl, rfl, rfl⟩

/-- Witness for claim C7 at concrete inputs. -/
theorem c7_consolidation_witness :
    TempClean initKTState ∧
    joined (saveToFile (List.foldl saveTemp initKTState [[1], [2]]) [] 5000) =
      joined initKTState ++ ([[1], [2]] : List (List TweetId)).reverse.flatten :=
  ⟨initKTState_tempClean,
   ((c7_consolidation 5000 [[1], [2]] initKTState [] (by decide)
      (initKTState_shape _) initKTState_tempClean).1).1⟩
